import Mathlib

/-!
# cmpt201-coursework: lab10 (bounded TCP message collector) and lab7 (grouping demo)

The definitions of both labs come first, the theorems follow, lab10 before lab7.

## lab10

Shallow embedding of `src/lab10/lab10.c` (server part): the linked list behind
`struct list_handle`, `add_to_list`, `collect_all`, `run_client` and
`run_acceptor` as step functions over the answers of their environment (values
of the run flags, outcomes of `read`, `accept` and `close`), and `main` over the
lock-protected steps of a run.

Conventions
* The heap is a list of cells, the address of a cell is its index, a freed cell
  is `none`.  A pointer is `Option Nat`, `none` being `NULL`.
* Dereferencing `NULL`, a freed cell or an address outside the heap is undefined
  behaviour; every operation that dereferences returns `Option`, `none` meaning
  that the C program has no defined result.
* `uint32_t` values are naturals reduced modulo `2 ^ 32`; `int` values are
  integers, a conversion from `uint32_t` goes through `toInt32`.
* The buffer a node's `data` field points to is stored inside the cell, so that
  `free(node->data); free(node);` frees the cell.
* `printf` with `%s` prints the bytes of a buffer before its first zero byte; on
  a buffer without a zero byte it reads past the end, which is undefined.
-/

namespace Lab10

/-! ## Constants of lab10.c -/

def BUF_SIZE : Nat := 1024
def MAX_CLIENTS : Nat := 4
def NUM_MSG_PER_CLIENT : Nat := 5
/-- Linux value of `EAGAIN`. -/
def EAGAIN : Nat := 11
/-- Linux value of `EWOULDBLOCK` (the same number as `EAGAIN`). -/
def EWOULDBLOCK : Nat := 11

/-- Number of values of a `uint32_t`. -/
def UINT32_SIZE : Nat := 2 ^ 32

/-- Conversion `uint32_t -> int` (two's complement, as gcc and clang do it). -/
def toInt32 (n : Nat) : Int :=
  if n % UINT32_SIZE < 2 ^ 31 then ((n % UINT32_SIZE : Nat) : Int)
  else ((n % UINT32_SIZE : Nat) : Int) - (UINT32_SIZE : Int)

/-- Conversion `int -> uint32_t` of the usual arithmetic conversions. -/
def toUInt32 (i : Int) : Nat := (i % (UINT32_SIZE : Int)).toNat

/-! ## Heap and list -/

/-- Contents of a message buffer (the bytes `data` points to). -/
abbrev Msg := List Nat

abbrev Ptr := Option Nat

/-- The C type `struct list_node`. -/
structure list_node where
  next : Ptr
  data : Option Msg
deriving DecidableEq, Repr

abbrev Heap := List (Option list_node)

/-- The C type `struct list_handle`. -/
structure list_handle where
  last : Ptr
  count : Nat
deriving DecidableEq, Repr

/-- Read of `*p`. -/
def load (h : Heap) (p : Ptr) : Option list_node :=
  match p with
  | none => none
  | some a => h[a]?.join

/-- Write of `*p = v`, defined on live cells only. -/
def store (h : Heap) (p : Ptr) (v : list_node) : Option Heap :=
  match p, load h p with
  | some a, some _ => some (h.set a (some v))
  | _, _ => none

/-- Allocation of a fresh cell holding `v`; the new address is the old heap size. -/
def malloc (h : Heap) (v : list_node) : Heap × Ptr :=
  (h ++ [some v], some h.length)

/-- Release of the cell at `p` (with the buffer it owns); double free is undefined. -/
def free (h : Heap) (p : Ptr) : Option Heap :=
  match p, load h p with
  | some a, some _ => some (h.set a none)
  | _, _ => none

/-- The shared collector: the heap holding `head` (address 0) and the message
nodes, together with `list_handle`. -/
structure Collector where
  heap : Heap
  lh : list_handle
deriving DecidableEq, Repr

/-- Address of the stack variable `head` of `main`. -/
def headAddr : Ptr := some 0

/-- State built by `main` (lines 281-286): `head = {NULL, NULL}`,
`list_handle = {.last = &head, .count = 0}`. -/
def initCollector : Collector :=
  { heap := [some { next := none, data := none }],
    lh := { last := headAddr, count := 0 } }

/-- Embedding of `add_to_list` (lines 169-174). -/
def add_to_list (c : Collector) (new_node : Ptr) : Option Collector := do
  let last_node := c.lh.last
  let n ← load c.heap last_node
  -- last_node->next = new_node;
  let h1 ← store c.heap last_node { n with next := new_node }
  -- list_handle->last = last_node->next;
  let n1 ← load h1 last_node
  -- list_handle->count++;
  some { heap := h1, lh := { last := n1.next, count := (c.lh.count + 1) % UINT32_SIZE } }

/-- Node creation followed by the append, lines 210-217 of `run_client`:
`new_node = malloc(..); new_node->next = NULL; new_node->data = <copy of msg_buf>;
add_to_list(list_handle, new_node)`. -/
def append_msg (c : Collector) (m : Msg) : Option Collector :=
  let (h1, p) := malloc c.heap { next := none, data := some m }
  add_to_list { c with heap := h1 } p

/-- A finite sequence of appends, in the order in which they acquired the lock. -/
def append_all (c : Collector) : List Msg → Option Collector
  | [] => some c
  | m :: ms => (append_msg c m).bind (fun c1 => append_all c1 ms)

/-- Addresses of the nodes met when following `next` from `p` until `NULL`.
`none` when the fuel runs out or a dead cell is met. -/
def reachable : Nat → Heap → Ptr → Option (List Nat)
  | _, _, none => some []
  | 0, _, some _ => none
  | fuel + 1, h, some a =>
    (load h (some a)).bind (fun n => (reachable fuel h n.next).map (fun r => a :: r))

/-- The bytes of a buffer before its first zero byte. -/
def chars_before_zero (d : Msg) : List Nat := d.takeWhile (fun b => b != 0)

/-- What `printf` prints for `%s` on the buffer `d`: the bytes before the first
zero byte.  A buffer without a zero byte is read past its end, which is
undefined. -/
def c_string (d : Msg) : Option (List Nat) :=
  if 0 ∈ d then some (chars_before_zero d) else none

/-- The `while (node != NULL)` loop of `collect_all` (lines 180-189).  The
accumulator holds `total` and the strings printed by
`printf("Collected: %s\n", ..)` so far.  `none` when the fuel runs out or on
undefined behaviour. -/
def collect_loop : Nat → Heap → Ptr → Nat → List Msg → Option (Heap × Nat × List Msg)
  | _, h, none, total, out => some (h, total, out)
  | 0, _, some _, _, _ => none
  | fuel + 1, h, some a, total, out =>
    match load h (some a) with
    | none => none
    | some node =>
      match node.data with
      | none => none
      | some d =>
        -- printf("Collected: %s\n", (char *)node->data);
        match c_string d with
        | none => none
        | some str =>
          let out1 := out ++ [str]
          -- total++;
          let total1 := (total + 1) % UINT32_SIZE
          -- next = node->next; free(node->data); free(node); node = next;
          let next := node.next
          match free h (some a) with
          | none => none
          | some h1 => collect_loop fuel h1 next total1 out1

/-- Embedding of `collect_all` (lines 176-192): `head` is passed by value, the
result is the heap after the frees, the `int` returned and the strings printed. -/
def collect_all (fuel : Nat) (h : Heap) (head : list_node) : Option (Heap × Int × List Msg) :=
  (collect_loop fuel h head.next 0 []).map (fun r => (r.1, toInt32 r.2.1, r.2.2))

/-! ## Closed form of the collector after a sequence of appends -/

/-- Cells of a chain laid out from address `k` on: every cell points to the
following address, the last one to `NULL`. -/
def cells : Nat → List (Option Msg) → Heap
  | _, [] => []
  | _, [d] => [some { next := none, data := d }]
  | k, d :: d1 :: r => some { next := some (k + 1), data := d } :: cells (k + 1) (d1 :: r)

/-- The collector holding the messages `ms`: `head` at address 0, message `i` at
address `i + 1`, `last` on the final node, `count` the wrapped length. -/
def built (ms : List Msg) : Collector :=
  { heap := cells 0 (none :: ms.map some),
    lh := { last := some ms.length, count := ms.length % UINT32_SIZE } }

/-! ## Tail of `main` -/

/-- Lines printed by `main` and `collect_all`. -/
inductive OutLine where
  | not_enough      -- "Not enough messages were received!"
  | collected_msg (m : Msg)   -- "Collected: %s", `m` the string printed
  | collected_total (n : Int) -- "Collected: %d"
  | not_all         -- "Not all messages were collected!"
  | all_collected   -- "All messages were collected!"
deriving DecidableEq, Repr

/-- What `main` leaves behind when it returns. -/
structure MainResult where
  status : Int
  out : List OutLine
  final : Collector
deriving DecidableEq, Repr

/-- Lines 308-324 of `main`, run once the acceptor has been joined. -/
def main_after_join (fuel : Nat) (c : Collector) : Option MainResult :=
  if c.lh.count ≠ MAX_CLIENTS * NUM_MSG_PER_CLIENT then
    some { status := 1, out := [OutLine.not_enough], final := c }
  else
    match load c.heap headAddr with
    | none => none
    | some head =>
      match collect_all fuel c.heap head with
      | none => none
      | some (h1, collected, msgs) =>
        let out := msgs.map OutLine.collected_msg ++ [OutLine.collected_total collected]
        -- if (collected != list_handle.count)
        if toUInt32 collected ≠ c.lh.count then
          some { status := 1, out := out ++ [OutLine.not_all], final := { c with heap := h1 } }
        else
          some { status := 0, out := out ++ [OutLine.all_collected],
                 final := { c with heap := h1 } }

/-! ## The coordinator's wait loop and the appends of the workers -/

/-- Lock-protected steps of a run, in the order in which they took `list_mutex`. -/
inductive RunEvent where
  | append (m : Msg)  -- lines 216-218 of a worker
  | poll              -- one iteration of the `while (1)` loop of `main`, lines 296-304
deriving DecidableEq, Repr

/-- Where `main` stands: in its wait loop, or past it (`aargs.run = false`, then
`pthread_join`). -/
inductive CoordPhase where
  | waiting
  | stopping
deriving DecidableEq, Repr

structure RunState where
  c : Collector
  phase : CoordPhase
deriving DecidableEq, Repr

/-- One lock-protected step. -/
def run_step (s : RunState) : RunEvent → Option RunState
  | RunEvent.append m => (append_msg s.c m).map (fun c1 => { s with c := c1 })
  | RunEvent.poll =>
    match s.phase with
    | CoordPhase.waiting =>
      -- uint32_t count = list_handle.count;
      -- if (count >= MAX_CLIENTS * NUM_MSG_PER_CLIENT) break;
      if s.c.lh.count ≥ MAX_CLIENTS * NUM_MSG_PER_CLIENT then
        some { s with phase := CoordPhase.stopping }
      else some s
    | CoordPhase.stopping => some s

def run_events (s : RunState) : List RunEvent → Option RunState
  | [] => some s
  | e :: es => (run_step s e).bind (fun s1 => run_events s1 es)

/-- Messages appended during a run. -/
def appended : List RunEvent → List Msg
  | [] => []
  | RunEvent.append m :: es => m :: appended es
  | RunEvent.poll :: es => appended es

/-- What `main` has done when the events of the run are over (the acceptor and
all workers have been joined by then, if `main` left its wait loop). -/
inductive MainOutcome where
  | still_waiting
  | returned (r : MainResult)
deriving DecidableEq, Repr

/-- Embedding of `main` over a run. -/
def main (fuel : Nat) (es : List RunEvent) : Option MainOutcome :=
  match run_events { c := initCollector, phase := CoordPhase.waiting } es with
  | none => none
  | some s =>
    match s.phase with
    | CoordPhase.waiting => some MainOutcome.still_waiting
    | CoordPhase.stopping => (main_after_join fuel s.c).map MainOutcome.returned

/-! ## Connection worker: `run_client` -/

/-- Outcome of `read(cfd, &msg_buf, BUF_SIZE)`; a call hands over at most
`BUF_SIZE` bytes. -/
inductive ReadOutcome where
  | fail (errno : Nat)      -- the call returns -1 and sets `errno`
  | got (bytes : List Nat)  -- the call returns `bytes.length`, 0 at end of stream
deriving DecidableEq, Repr

/-- The value of `bytes_read`. -/
def bytes_read : ReadOutcome → Int
  | ReadOutcome.fail _ => -1
  | ReadOutcome.got bytes => (bytes.length : Int)

/-- Contents of `msg_buf` after the call: the bytes received overwrite its front. -/
def fill_buf (msg_buf : Msg) : ReadOutcome → Msg
  | ReadOutcome.fail _ => msg_buf
  | ReadOutcome.got bytes => bytes ++ msg_buf.drop bytes.length

/-- The value of `errno` tested on line 204. -/
def errno_after : ReadOutcome → Nat
  | ReadOutcome.fail errno => errno
  | ReadOutcome.got _ => 0

inductive LoopCtl where
  | next_iteration
  | leave_loop
deriving DecidableEq, Repr

/-- Calls made by a worker, and the values of its run flag it has seen. -/
inductive ClientEvent where
  | saw_run (b : Bool)
  | read_call (cfd : Int)
  | perror_read
  | lock
  | add_to_list_call (m : Msg)
  | unlock
  | close_call (cfd : Int)
  | perror_close
deriving DecidableEq, Repr

/-- Body of the `while (cargs->run)` loop, lines 202-219, given the outcome of
the read: the collector and `msg_buf` afterwards, whether the loop goes on, and
the calls made after the read. -/
def run_client_body (c : Collector) (msg_buf : Msg) (r : ReadOutcome) :
    Option (Collector × Msg × LoopCtl × List ClientEvent) :=
  let buf1 := fill_buf msg_buf r
  if bytes_read r = -1 then
    if !(errno_after r == EAGAIN || errno_after r == EWOULDBLOCK) then
      some (c, buf1, LoopCtl.leave_loop, [ClientEvent.perror_read])
    else
      some (c, buf1, LoopCtl.next_iteration, [])
  else if bytes_read r > 0 then
    (append_msg c buf1).map (fun c1 =>
      (c1, buf1, LoopCtl.next_iteration,
        [ClientEvent.lock, ClientEvent.add_to_list_call buf1, ClientEvent.unlock]))
  else
    some (c, buf1, LoopCtl.next_iteration, [])

/-- Program points of `run_client` (after `set_non_blocking` has returned). -/
inductive ClientPc where
  | loop_test  -- about to evaluate `cargs->run`, line 201
  | reading    -- about to call `read`, line 202
  | closing    -- past the loop, about to call `close`, line 222
  | returned
deriving DecidableEq, Repr

structure ClientState where
  pc : ClientPc
  cfd : Int
  msg_buf : Msg
deriving DecidableEq, Repr

/-- What the environment answers at a step: the value of `cargs->run` read by
the loop test, the outcome of a `read`, the value returned by `close`. -/
structure ClientEnv where
  run : Bool
  rd : ReadOutcome
  close_ret : Int
deriving DecidableEq, Repr

/-- Step relation of `run_client`, as a function of the environment's answer. -/
def client_step (c : Collector) (w : ClientState) (e : ClientEnv) :
    Option (Collector × ClientState × List ClientEvent) :=
  match w.pc with
  | ClientPc.loop_test =>
    if e.run then some (c, { w with pc := ClientPc.reading }, [ClientEvent.saw_run true])
    else some (c, { w with pc := ClientPc.closing }, [ClientEvent.saw_run false])
  | ClientPc.reading =>
    (run_client_body c w.msg_buf e.rd).map (fun r =>
      (r.1,
       { w with
         msg_buf := r.2.1,
         pc := match r.2.2.1 with
               | LoopCtl.next_iteration => ClientPc.loop_test
               | LoopCtl.leave_loop => ClientPc.closing },
       ClientEvent.read_call w.cfd :: r.2.2.2))
  | ClientPc.closing =>
    some (c, { w with pc := ClientPc.returned },
      ClientEvent.close_call w.cfd ::
        (if e.close_ret = -1 then [ClientEvent.perror_close] else []))
  | ClientPc.returned => some (c, w, [])

/-- Steps of a worker against a sequence of answers, with the trace of its calls. -/
def run_client (c : Collector) (w : ClientState) :
    List ClientEnv → Option (Collector × ClientState × List ClientEvent)
  | [] => some (c, w, [])
  | e :: es =>
    (client_step c w e).bind (fun r =>
      (run_client r.1 r.2.1 es).map (fun r1 => (r1.1, r1.2.1, r.2.2 ++ r1.2.2)))

/-- State of a worker entering its loop on descriptor `cfd`, `msg_buf` holding
whatever the stack held. -/
def client_start (cfd : Int) (msg_buf : Msg) : ClientState :=
  { pc := ClientPc.loop_test, cfd := cfd, msg_buf := msg_buf }

/-! ## The scripted client (second half of lab10.c) -/

def NUM_MSG : Nat := 5

/-- The array `messages`, lines 347-348: "Hello", "Apple", "Car", "Green", "Dog"
as bytes. -/
def messages : List (List Nat) :=
  [[72, 101, 108, 108, 111], [65, 112, 112, 108, 101], [67, 97, 114],
   [71, 114, 101, 101, 110], [68, 111, 103]]

/-- Result of `strncpy(buf, messages[i], BUF_SIZE)`: the string, padded with
zero bytes up to `BUF_SIZE`. -/
def padded (str : List Nat) : Msg :=
  str.take BUF_SIZE ++ List.replicate (BUF_SIZE - str.length) 0

/-- The buffers one client writes. -/
def client_writes : List Msg := messages.map padded

/-- The buffers of `MAX_CLIENTS` clients, each read whole, session after session. -/
def four_sessions : List Msg := (List.replicate MAX_CLIENTS client_writes).flatten

/-! ## Acceptor: `run_acceptor` -/

/-- Number of values of a `uint16_t` (the type of `num_clients`). -/
def UINT16_SIZE : Nat := 2 ^ 16

/-- Outcome of `accept(sfd, NULL, NULL)`. -/
inductive AcceptOutcome where
  | fail (errno : Nat)  -- the call returns -1 and sets `errno`
  | conn (cfd : Int)    -- the call returns the descriptor of the new connection
deriving DecidableEq, Repr

/-- The C type `struct client_args`; its fields `list_handle` and `list_lock`
hold the same two addresses in every session and are left out. -/
structure client_args where
  run : Bool
  cfd : Int
deriving DecidableEq, Repr

inductive AcceptorPc where
  | accepting      -- in the `while (aargs->run)` loop, lines 239-258
  | shutting_down  -- past the loop, before line 263
  | returned
  | exited         -- `handle_error("accept")` has ended the process
deriving DecidableEq, Repr

/-- Locals of `run_acceptor`: `num_clients` and the array
`client_args[MAX_CLIENTS]`, a slot being `none` until it is written. -/
structure AcceptorState where
  pc : AcceptorPc
  num_clients : Nat
  slots : List (Option client_args)
deriving DecidableEq, Repr

/-- Calls made by the acceptor, array slots it writes, flag values it sees. -/
inductive AcceptorEvent where
  | saw_run (b : Bool)
  | accept_call (num_clients : Nat)
  | handle_error_accept
  | slot_write (i : Nat) (cfd : Int)
  | thread_create (i : Int)
  | set_stop (i : Nat)
  | join (i : Nat)
  | close_call (fd : Int)
deriving DecidableEq, Repr

/-- What the environment answers in one iteration: the value of `aargs->run`
and the outcome of `accept`, if it is called. -/
structure AcceptorEnv where
  run : Bool
  acc : AcceptOutcome
deriving DecidableEq, Repr

def acceptor_start : AcceptorState :=
  { pc := AcceptorPc.accepting, num_clients := 0, slots := List.replicate MAX_CLIENTS none }

/-- One evaluation of the loop test and, when it holds, of the body of the
`while (aargs->run)` loop (lines 239-258).  `none` when an array is indexed
outside `0 .. MAX_CLIENTS - 1`. -/
def acceptor_iter (s : AcceptorState) (e : AcceptorEnv) :
    Option (AcceptorState × List AcceptorEvent) :=
  if !e.run then
    some ({ s with pc := AcceptorPc.shutting_down }, [AcceptorEvent.saw_run false])
  else if s.num_clients < MAX_CLIENTS then
    match e.acc with
    | AcceptOutcome.fail errno =>
      if !(errno == EAGAIN || errno == EWOULDBLOCK) then
        some ({ s with pc := AcceptorPc.exited },
          [AcceptorEvent.saw_run true, AcceptorEvent.accept_call s.num_clients,
           AcceptorEvent.handle_error_accept])
      else
        some (s, [AcceptorEvent.saw_run true, AcceptorEvent.accept_call s.num_clients])
    | AcceptOutcome.conn cfd =>
      -- client_args[num_clients].cfd = cfd; client_args[num_clients].run = true;
      if s.num_clients < s.slots.length then
        let slots1 := s.slots.set s.num_clients (some { run := true, cfd := cfd })
        -- num_clients++;
        let n1 := (s.num_clients + 1) % UINT16_SIZE
        -- pthread_create(&threads[num_clients - 1], .., &client_args[num_clients - 1]);
        let idx : Int := (n1 : Int) - 1
        if 0 ≤ idx ∧ idx < (MAX_CLIENTS : Int) then
          some ({ s with num_clients := n1, slots := slots1 },
            [AcceptorEvent.saw_run true, AcceptorEvent.accept_call s.num_clients,
             AcceptorEvent.slot_write s.num_clients cfd, AcceptorEvent.thread_create idx])
        else none
      else none
  else
    some (s, [AcceptorEvent.saw_run true])

/-- The loop of `run_acceptor` against a sequence of answers; answers left when
the loop has been left are not used. -/
def acceptor_loop (s : AcceptorState) :
    List AcceptorEnv → Option (AcceptorState × List AcceptorEvent)
  | [] => some (s, [])
  | e :: es =>
    match s.pc with
    | AcceptorPc.accepting =>
      (acceptor_iter s e).bind (fun r =>
        (acceptor_loop r.1 es).map (fun r1 => (r1.1, r.2 ++ r1.2)))
    | _ => some (s, [])

/-- The `for (int i = 0; i < num_clients; i++)` loop of lines 263-267, `k`
iterations from index `i` on. -/
def shutdown_loop : Nat → Nat → List (Option client_args) →
    Option (List (Option client_args) × List AcceptorEvent)
  | 0, _, slots => some (slots, [])
  | k + 1, i, slots =>
    match slots[i]? with
    | some (some a) =>
      -- client_args[i].run = false; pthread_join(threads[i], NULL);
      -- close(client_args[i].cfd);
      (shutdown_loop k (i + 1) (slots.set i (some { a with run := false }))).map (fun r =>
        (r.1, AcceptorEvent.set_stop i :: AcceptorEvent.join i ::
                AcceptorEvent.close_call a.cfd :: r.2))
    | _ => none

/-- Lines 260-272: the shutdown loop, then `close(sfd)`. -/
def acceptor_shutdown (sfd : Int) (s : AcceptorState) :
    Option (AcceptorState × List AcceptorEvent) :=
  (shutdown_loop s.num_clients 0 s.slots).map (fun r =>
    ({ s with pc := AcceptorPc.returned, slots := r.1 },
      r.2 ++ [AcceptorEvent.close_call sfd]))

/-- Embedding of `run_acceptor` once the listening socket `sfd` is set up: the
accept loop, then the shutdown when the loop was left through its test. -/
def run_acceptor (sfd : Int) (es : List AcceptorEnv) :
    Option (AcceptorState × List AcceptorEvent) :=
  (acceptor_loop acceptor_start es).bind (fun r =>
    match r.1.pc with
    | AcceptorPc.shutting_down =>
      (acceptor_shutdown sfd r.1).map (fun r1 => (r1.1, r.2 ++ r1.2))
    | _ => some r)

/-- Descriptors passed to `close` by a worker, in order. -/
def client_closes : List ClientEvent → List Int
  | [] => []
  | ClientEvent.close_call fd :: t => fd :: client_closes t
  | _ :: t => client_closes t

/-- Descriptors passed to `close` by the acceptor, in order. -/
def acceptor_closes : List AcceptorEvent → List Int
  | [] => []
  | AcceptorEvent.close_call fd :: t => fd :: acceptor_closes t
  | _ :: t => acceptor_closes t

/-- Events of a shutdown that handles the sessions one after the other, from
index `i` on: stop signal, join and close of a session, then the next session. -/
def shutdown_trace : Nat → List Int → List AcceptorEvent
  | _, [] => []
  | i, fd :: fds =>
    AcceptorEvent.set_stop i :: AcceptorEvent.join i :: AcceptorEvent.close_call fd ::
      shutdown_trace (i + 1) fds

/-- Slots of sessions that have been accepted on the descriptors `fds` and are
still running. -/
def live_slots (fds : List Int) : List (Option client_args) :=
  fds.map (fun fd => some { run := true, cfd := fd })

/-- Slots of sessions on the descriptors `fds` whose stop signal has been set. -/
def stopped_slots (fds : List Int) : List (Option client_args) :=
  fds.map (fun fd => some { run := false, cfd := fd })

/-- Descriptors of the connections accepted in a trace of the acceptor, in the
order of their slots. -/
def accepted_fds : List AcceptorEvent → List Int
  | [] => []
  | AcceptorEvent.slot_write _ fd :: t => fd :: accepted_fds t
  | _ :: t => accepted_fds t

end Lab10

/-!
# lab7: grouping demo

Shallow embedding of `src/lab7/lab7.c`: `map`, `groupByKey`, `reduce` and the
part of `main` that applies them.  `int` values are integers, signed overflow
being undefined (`none`); the counters `count`, `result_count` and `input_size`
only count up from 0 and are naturals; the arrays are lists of `MAX_INPUT`
elements, indexing outside being undefined (`none`).
-/

namespace Lab7

def MAX_INPUT : Nat := 100

/-- Least value of an `int`. -/
def INT_MIN : Int := -(2 ^ 31)

/-- Greatest value of an `int`. -/
def INT_MAX : Int := 2 ^ 31 - 1

/-- The C type `Input`. -/
structure Input where
  line_number : Int
  value : Int
deriving DecidableEq, Repr

/-- The C type `IntermediateInput`. -/
structure IntermediateInput where
  line_number : Int
  doubled_value : Int
deriving DecidableEq, Repr

/-- The C type `Output`: `line_numbers` is the whole array of `MAX_INPUT` ints. -/
structure Output where
  doubled_value : Int
  line_numbers : List Int
  count : Nat
deriving DecidableEq, Repr

/-- Embedding of `map` (lines 73-76); `input->value * 2` is undefined when it
leaves the range of `int`. -/
def map (input : Input) : Option IntermediateInput :=
  if INT_MIN ≤ input.value * 2 ∧ input.value * 2 ≤ INT_MAX then
    some { line_number := input.line_number, doubled_value := input.value * 2 }
  else none

/-- The statement `output[i].line_numbers[output[i].count++] = line_number`. -/
def push_line (o : Output) (line_number : Int) : Option Output :=
  if o.count < o.line_numbers.length then
    some { o with line_numbers := o.line_numbers.set o.count line_number,
                  count := o.count + 1 }
  else none

/-- The loop of lines 80-87 of `groupByKey`, `k` iterations from index `i` on.
`some (some output1)`: a group with the key was found and the function has
returned, leaving the array `output1`; `some none`: the loop ended without a
match; `none`: an index was out of range. -/
def find_group (input : IntermediateInput) :
    Nat → Nat → List Output → Option (Option (List Output))
  | 0, _, _ => some none
  | k + 1, i, output =>
    match output[i]? with
    | none => none
    | some o =>
      if o.doubled_value = input.doubled_value then
        if o.count < MAX_INPUT then
          (push_line o input.line_number).map (fun o1 => some (output.set i o1))
        else some (some output)
      else find_group input k (i + 1) output

/-- The array `output_results` with `result_count`. -/
structure Groups where
  output : List Output
  result_count : Nat
deriving DecidableEq, Repr

/-- Embedding of `groupByKey` (lines 78-99). -/
def groupByKey (input : IntermediateInput) (g : Groups) : Option Groups :=
  match find_group input g.result_count 0 g.output with
  | none => none
  | some (some output1) => some { g with output := output1 }
  | some none =>
    -- create a new group
    if g.result_count < MAX_INPUT then
      let idx := g.result_count
      match g.output[idx]? with
      | none => none
      | some o =>
        -- output[idx].doubled_value = input->doubled_value; output[idx].count = 0;
        let o1 : Output := { o with doubled_value := input.doubled_value, count := 0 }
        let o2 : Option Output :=
          if o1.count < MAX_INPUT then push_line o1 input.line_number else some o1
        -- (*result_count)++;
        o2.map (fun o3 => { output := g.output.set idx o3, result_count := g.result_count + 1 })
    else some g

/-- Embedding of `reduce` (lines 101-108): the key and the line numbers printed. -/
def reduce (o : Output) : Int × List Int :=
  (o.doubled_value, o.line_numbers.take o.count)

/-- An element of an array initialised with `= {0}`. -/
def zero_output : Output :=
  { doubled_value := 0, line_numbers := List.replicate MAX_INPUT 0, count := 0 }

/-- `Output output_results[MAX_INPUT] = {0}; int result_count = 0;` (lines 58-59). -/
def init_groups : Groups :=
  { output := List.replicate MAX_INPUT zero_output, result_count := 0 }

/-- The loop of lines 54-56: `map` on each entry, in order. -/
def map_all : List Input → Option (List IntermediateInput)
  | [] => some []
  | e :: es => (map e).bind (fun m => (map_all es).map (fun ms => m :: ms))

/-- The loop of lines 60-62: `groupByKey` on each mapped entry, in order. -/
def group_all (g : Groups) : List IntermediateInput → Option Groups
  | [] => some g
  | m :: ms => (groupByKey m g).bind (fun g1 => group_all g1 ms)

/-- The groups held in `output_results[0 .. result_count - 1]`, as `reduce`
reads them. -/
def groups_of (g : Groups) : List (Int × List Int) :=
  (g.output.take g.result_count).map reduce

/-- Lines 53-68 of `main` on the array `input_data`: the groups built, and the
groups printed (those with `count > 0`). -/
def main (input_data : List Input) : Option (List (Int × List Int) × List (Int × List Int)) :=
  (map_all input_data).bind (fun mapped =>
    (group_all init_groups mapped).map (fun g =>
      (groups_of g,
       ((g.output.take g.result_count).filter (fun o => decide (o.count > 0))).map reduce)))

/-- Conversion `long -> int` of line 46, `(int)v` (two's complement, as gcc and
clang do it). -/
def to_int (v : Int) : Int := (v + 2 ^ 31) % 2 ^ 32 - 2 ^ 31

/-- The loop of lines 33-51 of `main`, `input_size` entries being stored
already, on the values `strtol` returned for the accepted lines: every value is
stored as an `int` and gets the next line number, up to `MAX_INPUT` entries. -/
def read_values : Nat → List Int → List Input
  | _, [] => []
  | input_size, v :: vs =>
    if input_size < MAX_INPUT then
      { line_number := (input_size : Int) + 1, value := to_int v }
        :: read_values (input_size + 1) vs
    else []

/-- The array `input_data` after the lines with the values `vs` have been
accepted. -/
def input_data (vs : List Int) : List Input := read_values 0 vs

/-! ## Closed form of the array of groups -/

/-- The array element holding the group with key `k` and line numbers `ls`. -/
def encode (kl : Int × List Int) : Output :=
  { doubled_value := kl.1,
    line_numbers := kl.2 ++ List.replicate (MAX_INPUT - kl.2.length) 0,
    count := kl.2.length }

/-- The arrays holding the groups `gs`. -/
def encode_groups (gs : List (Int × List Int)) : Groups :=
  { output := gs.map encode ++ List.replicate (MAX_INPUT - gs.length) zero_output,
    result_count := gs.length }

/-- Grouping on lists: the line number joins the first group with its key, or
a new group is added at the end. -/
def insert_line (m : IntermediateInput) : List (Int × List Int) → List (Int × List Int)
  | [] => [(m.doubled_value, [m.line_number])]
  | (k, ls) :: gs =>
    if k = m.doubled_value then (k, ls ++ [m.line_number]) :: gs
    else (k, ls) :: insert_line m gs

/-- Grouping of a list of mapped entries, from the groups `gs` on. -/
def insert_all (gs : List (Int × List Int)) : List IntermediateInput → List (Int × List Int)
  | [] => gs
  | m :: ms => insert_all (insert_line m gs) ms

/-! ## The groups as the specification describes them -/

/-- Line numbers of the mapped entries of `ms` whose key is `k`, in input order. -/
def lines_with_key (ms : List IntermediateInput) (k : Int) : List Int :=
  (ms.filter (fun m => decide (m.doubled_value = k))).map (fun m => m.line_number)

/-- The grouping of the mapped entries `ms` in the words of the specification:
the keys of the groups are pairwise distinct, they are the keys that occur in
`ms`, every group holds the line numbers of the entries with its key in input
order, and the groups are listed in the order of the first occurrence of their
keys. -/
def grouped (ms : List IntermediateInput) (gs : List (Int × List Int)) : Prop :=
  (gs.map Prod.fst).Nodup ∧
  (∀ k, k ∈ gs.map Prod.fst ↔ k ∈ ms.map (fun m => m.doubled_value)) ∧
  (∀ g ∈ gs, g.2 = lines_with_key ms g.1) ∧
  (gs.map Prod.fst).Pairwise (fun a b =>
    (ms.map (fun m => m.doubled_value)).indexOf a
      < (ms.map (fun m => m.doubled_value)).indexOf b)

end Lab7

namespace Lab10

/-! ## Lemmas on the heap of an appended collector -/

theorem cells_length : ∀ (ds : List (Option Msg)) (k : Nat), (cells k ds).length = ds.length
  | [], _ => rfl
  | [_], _ => rfl
  | _ :: d1 :: r, k => by
    simp only [cells, List.length_cons]
    rw [cells_length (d1 :: r) (k + 1)]
    simp

theorem cells_snoc : ∀ (r : List (Option Msg)) (k : Nat) (d e : Option Msg),
    ∃ n : list_node,
      (cells k (d :: r) ++ [some (list_node.mk none e)])[r.length]? = some (some n) ∧
      (cells k (d :: r) ++ [some (list_node.mk none e)]).set r.length
          (some { n with next := some (k + r.length + 1) }) = cells k (d :: r ++ [e])
  | [], k, d, e => ⟨list_node.mk none d, by simp [cells], by simp [cells]⟩
  | d1 :: r, k, d, e => by
    obtain ⟨n, h1, h2⟩ := cells_snoc r (k + 1) d1 e
    refine ⟨n, ?_, ?_⟩
    · simpa [cells] using h1
    · have : k + 1 + r.length + 1 = k + (r.length + 1) + 1 := by omega
      rw [this] at h2
      simp only [cells, List.cons_append, List.length_cons, List.set_cons_succ]
      rw [h2]
      cases r <;> simp [cells]

theorem append_msg_built (ms : List Msg) (m : Msg) :
    append_msg (built ms) m = some (built (ms ++ [m])) := by
  obtain ⟨n, h1, h2⟩ := cells_snoc (ms.map some) 0 none (some m)
  simp only [List.length_map, Nat.zero_add] at h1 h2
  have hlen : (cells 0 (none :: ms.map some)).length = ms.length + 1 := by
    rw [cells_length]; simp
  have h3 : (cells 0 (none :: List.map some ms ++ [some m]))[ms.length]?
      = some (some (list_node.mk (some (ms.length + 1)) n.data)) := by
    rw [← h2, List.getElem?_set_self]
    simp only [List.length_append, hlen, List.length_singleton]
    omega
  have hc : (ms.length % UINT32_SIZE + 1) % UINT32_SIZE = (ms.length + 1) % UINT32_SIZE := by
    simp [Nat.add_mod]
  simp only [append_msg, malloc, add_to_list, built, load, store, h1, Option.join, hlen,
    Option.bind_eq_bind, Option.some_bind, id, h2, h3, hc, List.map_append, List.map_cons,
    List.map_nil, List.length_append, List.length_singleton, List.cons_append]
  rw [List.cons_append] at h3
  simp only [h3, Option.some_bind]

theorem append_all_built : ∀ (ms1 ms : List Msg),
    append_all (built ms) ms1 = some (built (ms ++ ms1))
  | [], ms => by simp [append_all]
  | m :: ms1, ms => by
    simp only [append_all, append_msg_built, Option.some_bind]
    rw [append_all_built ms1 (ms ++ [m])]
    simp

theorem initCollector_eq : initCollector = built [] := rfl

theorem append_all_init (ms : List Msg) : append_all initCollector ms = some (built ms) := by
  rw [initCollector_eq, append_all_built]; simp


theorem load_append_cons (pre : Heap) (c : list_node) (rest : Heap) :
    load (pre ++ some c :: rest) (some pre.length) = some c := by
  have h : (pre ++ some c :: rest)[pre.length]? = some (some c) := by
    rw [List.getElem?_append_right (Nat.le_refl _)]
    simp
  simp only [load, h, Option.join, Option.some_bind, id]

theorem free_append_cons (pre : Heap) (c : list_node) (rest : Heap) :
    free (pre ++ some c :: rest) (some pre.length) = some ((pre ++ [none]) ++ rest) := by
  have h := load_append_cons pre c rest
  simp only [free, h]
  simp

theorem c_string_of_mem (m : Msg) (h : 0 ∈ m) : c_string m = some (chars_before_zero m) := by
  simp only [c_string, h, if_true]

theorem collect_loop_cells : ∀ (ms : List Msg) (m : Msg) (pre : Heap) (fuel total : Nat)
    (out : List Msg), ms.length + 1 ≤ fuel → (∀ x ∈ m :: ms, 0 ∈ x) →
    collect_loop fuel (pre ++ cells pre.length ((m :: ms).map some)) (some pre.length) total out
      = some (pre ++ List.replicate (ms.length + 1) none,
              (total + (ms.length + 1)) % UINT32_SIZE,
              out ++ (m :: ms).map chars_before_zero)
  | [], m, pre, fuel, total, out, hf, ht => by
    obtain ⟨f, rfl⟩ : ∃ f, fuel = f + 1 := ⟨fuel - 1, by simp at hf; omega⟩
    have hm := c_string_of_mem m (ht m (List.mem_cons_self _ _))
    simp only [List.map_cons, List.map_nil, cells, collect_loop, load_append_cons,
      free_append_cons, hm]
    cases f <;> simp [collect_loop]
  | m1 :: ms, m, pre, fuel, total, out, hf, ht => by
    obtain ⟨f, rfl⟩ : ∃ f, fuel = f + 1 := ⟨fuel - 1, by simp at hf; omega⟩
    have hm := c_string_of_mem m (ht m (List.mem_cons_self _ _))
    have ih := collect_loop_cells ms m1 (pre ++ [none]) f ((total + 1) % UINT32_SIZE)
      (out ++ [chars_before_zero m]) (by simp at hf; omega)
      (fun x hx => ht x (List.mem_cons_of_mem _ hx))
    simp only [List.length_append, List.length_singleton] at ih
    simp only [List.map_cons, cells, collect_loop, load_append_cons, free_append_cons, hm]
    simp only [List.map_cons] at ih
    rw [ih]
    simp only [List.length_cons, List.append_assoc, List.singleton_append, Nat.mod_add_mod,
      List.replicate_succ]
    have e : total + 1 + (ms.length + 1) = total + (ms.length + 1 + 1) := by omega
    rw [e]

theorem reachable_cells : ∀ (ds : List (Option Msg)) (d : Option Msg) (pre : Heap) (fuel : Nat),
    ds.length + 1 ≤ fuel →
    reachable fuel (pre ++ cells pre.length (d :: ds)) (some pre.length)
      = some (List.range' pre.length (ds.length + 1))
  | [], d, pre, fuel, hf => by
    obtain ⟨f, rfl⟩ : ∃ f, fuel = f + 1 := ⟨fuel - 1, by simp at hf; omega⟩
    simp only [cells, reachable, load_append_cons, Option.some_bind]
    cases f <;> simp [reachable]
  | d1 :: ds, d, pre, fuel, hf => by
    obtain ⟨f, rfl⟩ : ∃ f, fuel = f + 1 := ⟨fuel - 1, by simp at hf; omega⟩
    have ih := reachable_cells ds d1 (pre ++ [some (list_node.mk (some (pre.length + 1)) d)]) f
      (by simp at hf; omega)
    simp only [List.length_append, List.length_singleton, List.append_assoc,
      List.singleton_append] at ih
    simp only [cells, reachable, load_append_cons, Option.some_bind, ih, Option.map_some']
    simp [List.range'_succ]

/-- The value of `head` once the messages `ms` have been appended. -/
theorem load_head_built (ms : List Msg) :
    load (built ms).heap headAddr
      = some { next := if ms = [] then none else some 1, data := none } := by
  cases ms with
  | nil => rfl
  | cons m ms =>
    have := load_append_cons [] (list_node.mk (some 1) none) (cells 1 ((m :: ms).map some))
    simpa [built, cells, headAddr] using this

theorem built_heap_cons (m : Msg) (ms : List Msg) :
    (built (m :: ms)).heap
      = [some (list_node.mk (some 1) none)] ++ cells 1 ((m :: ms).map some) := by
  simp [built, cells]

theorem reachable_built (ms : List Msg) (fuel : Nat) (hf : ms.length ≤ fuel) :
    reachable fuel (built ms).heap (if ms = [] then none else some 1)
      = some (List.range' 1 ms.length) := by
  cases ms with
  | nil => cases fuel <;> simp [reachable]
  | cons m ms =>
    rw [built_heap_cons]
    have := reachable_cells (ms.map some) (some m) [some (list_node.mk (some 1) none)] fuel
      (by simpa using hf)
    simpa using this

theorem collect_loop_built (ms : List Msg) (fuel : Nat) (hf : ms.length ≤ fuel)
    (ht : ∀ m ∈ ms, 0 ∈ m) :
    collect_loop fuel (built ms).heap (if ms = [] then none else some 1) 0 []
      = some (some (list_node.mk (if ms = [] then none else some 1) none)
                :: List.replicate ms.length none,
              ms.length % UINT32_SIZE, ms.map chars_before_zero) := by
  cases ms with
  | nil => cases fuel <;> simp [collect_loop, built, cells]
  | cons m ms =>
    rw [built_heap_cons]
    have := collect_loop_cells ms m [some (list_node.mk (some 1) none)] fuel 0 []
      (by simpa using hf) ht
    simpa using this

theorem toInt32_mod (n : Nat) : toInt32 (n % UINT32_SIZE) = toInt32 n := by
  simp [toInt32]

theorem collect_all_built (ms : List Msg) (fuel : Nat) (hf : ms.length ≤ fuel)
    (ht : ∀ m ∈ ms, 0 ∈ m) :
    collect_all fuel (built ms).heap { next := if ms = [] then none else some 1, data := none }
      = some (some (list_node.mk (if ms = [] then none else some 1) none)
                :: List.replicate ms.length none,
              toInt32 ms.length, ms.map chars_before_zero) := by
  simp only [collect_all, collect_loop_built ms fuel hf ht, Option.map_some', toInt32_mod]

/-- State reached by the appends `ms`, with what a walk from `head.next` finds
in it. -/
theorem appended_state (ms : List Msg) (fuel : Nat) (hfuel : ms.length ≤ fuel) :
    ∃ c head nodes, append_all initCollector ms = some c ∧
      load c.heap headAddr = some head ∧
      reachable fuel c.heap head.next = some nodes ∧ nodes.length = ms.length ∧
      c.lh.count = ms.length % UINT32_SIZE ∧ c = built ms :=
  ⟨built ms, _, _, append_all_init ms, load_head_built ms, reachable_built ms fuel hfuel,
    by simp, rfl, rfl⟩

/-- C1 (amended): after any finite sequence of appends to the initial collector
the walk from `head.next` finds exactly one node per append, and `count` is that
number reduced modulo `2 ^ 32`; below `2 ^ 32` appends `count` is the number of
reachable nodes. -/
theorem count_eq_reachable_nodes_mod (ms : List Msg) (fuel : Nat) (hfuel : ms.length ≤ fuel) :
    ∃ c head nodes, append_all initCollector ms = some c ∧
      load c.heap headAddr = some head ∧
      reachable fuel c.heap head.next = some nodes ∧
      nodes.length = ms.length ∧
      c.lh.count = nodes.length % UINT32_SIZE ∧
      (ms.length < UINT32_SIZE → c.lh.count = nodes.length) := by
  obtain ⟨c, head, nodes, h1, h2, h3, h4, h5, _⟩ := appended_state ms fuel hfuel
  refine ⟨c, head, nodes, h1, h2, h3, h4, by rw [h4, h5], fun hlt => ?_⟩
  rw [h4, h5, Nat.mod_eq_of_lt hlt]

/-- Witness of C1: two appends, fuel 2. -/
theorem count_eq_reachable_nodes_mod_witness :
    ([[72, 105], [79, 107]] : List Msg).length ≤ 2 ∧
    ∃ c head nodes, append_all initCollector [[72, 105], [79, 107]] = some c ∧
      load c.heap headAddr = some head ∧
      reachable 2 c.heap head.next = some nodes ∧
      nodes.length = ([[72, 105], [79, 107]] : List Msg).length ∧
      c.lh.count = nodes.length % UINT32_SIZE ∧
      (([[72, 105], [79, 107]] : List Msg).length < UINT32_SIZE → c.lh.count = nodes.length) :=
  ⟨by decide, count_eq_reachable_nodes_mod [[72, 105], [79, 107]] 2 (by decide)⟩

/-- After `n` appends, `n` a positive multiple of `2 ^ 32`, there are `n` nodes
and `count` is 0. -/
theorem wrapped_count (n : Nat) (hn : n % UINT32_SIZE = 0) (hpos : 0 < n) :
    ∃ c head nodes, append_all initCollector (List.replicate n []) = some c ∧
      load c.heap headAddr = some head ∧
      reachable n c.heap head.next = some nodes ∧
      nodes.length = n ∧ c.lh.count = 0 ∧ c.lh.count ≠ nodes.length := by
  have hl : (List.replicate n ([] : Msg)).length = n := List.length_replicate _ _
  obtain ⟨c, head, nodes, h1, h2, h3, h4, h5, _⟩ :=
    appended_state (List.replicate n []) n (Nat.le_of_eq hl)
  rw [hl] at h4 h5
  have h0 : c.lh.count = 0 := by rw [h5]; exact hn
  refine ⟨c, head, nodes, h1, h2, h3, h4, h0, ?_⟩
  rw [h0, h4]
  exact hpos.ne

/-- C1 (counterexample): after `2 ^ 32` appends the walk from `head.next` finds
`2 ^ 32` nodes while the `uint32_t` field `count` has wrapped to 0. -/
theorem count_ne_reachable_nodes_at_wrap :
    ∃ c head nodes, append_all initCollector (List.replicate (2 ^ 32) []) = some c ∧
      load c.heap headAddr = some head ∧
      reachable (2 ^ 32) c.heap head.next = some nodes ∧
      nodes.length = 2 ^ 32 ∧ c.lh.count = 0 ∧ c.lh.count ≠ nodes.length :=
  wrapped_count (2 ^ 32) (by decide) (by decide)

theorem toUInt32_toInt32 (n : Nat) : toUInt32 (toInt32 n) = n % UINT32_SIZE := by
  have hpos : 0 < UINT32_SIZE := by decide
  have hlt := Nat.mod_lt n hpos
  unfold toUInt32 toInt32
  generalize n % UINT32_SIZE = k at hlt ⊢
  have e : ((UINT32_SIZE : Nat) : Int) = 4294967296 := by decide
  have e2 : UINT32_SIZE = 4294967296 := by decide
  rw [e]
  rw [e2] at hlt
  split <;> omega

/-- The tail of `main` on the collector holding `ms`, every buffer holding a
zero byte. -/
theorem main_after_join_built (ms : List Msg) (fuel : Nat) (hfuel : ms.length ≤ fuel)
    (hterm : ∀ m ∈ ms, 0 ∈ m) :
    main_after_join fuel (built ms) =
      if ms.length % UINT32_SIZE ≠ MAX_CLIENTS * NUM_MSG_PER_CLIENT then
        some { status := 1, out := [OutLine.not_enough], final := built ms }
      else
        some { status := 0,
               out := (ms.map chars_before_zero).map OutLine.collected_msg ++
                 [OutLine.collected_total (toInt32 ms.length), OutLine.all_collected],
               final := { heap := some (list_node.mk (if ms = [] then none else some 1) none)
                                    :: List.replicate ms.length none,
                          lh := (built ms).lh } } := by
  unfold main_after_join
  by_cases h : ms.length % UINT32_SIZE = MAX_CLIENTS * NUM_MSG_PER_CLIENT
  · have hc : (built ms).lh.count = MAX_CLIENTS * NUM_MSG_PER_CLIENT := h
    simp only [hc, ne_eq, not_true_eq_false, if_false, load_head_built,
      collect_all_built ms fuel hfuel hterm, toUInt32_toInt32, h, List.append_assoc,
      List.singleton_append]
  · have hc : (built ms).lh.count ≠ MAX_CLIENTS * NUM_MSG_PER_CLIENT := h
    simp only [hc, ne_eq, not_false_eq_true, if_true, h]

theorem four_sessions_length : four_sessions.length = 20 := by decide

theorem four_sessions_terminated : ∀ m ∈ four_sessions, 0 ∈ m := by decide

theorem load_head_cons (head : list_node) (rest : Heap) :
    load (some head :: rest) headAddr = some head := by
  simp [load, headAddr]

/-- State in which the tail of `main` leaves the collector holding `ms` when the
count check passes, every buffer holding a zero byte. -/
theorem drained_state (ms : List Msg) (fuel : Nat) (hfuel : ms.length ≤ fuel)
    (hterm : ∀ m ∈ ms, 0 ∈ m)
    (hcount : ms.length % UINT32_SIZE = MAX_CLIENTS * NUM_MSG_PER_CLIENT) :
    ∃ c head r, append_all initCollector ms = some c ∧
      load c.heap headAddr = some head ∧
      head.next = (if ms = [] then none else some 1) ∧
      main_after_join fuel c = some r ∧
      r.status = 0 ∧
      r.final.lh = c.lh ∧
      r.final.lh.count = MAX_CLIENTS * NUM_MSG_PER_CLIENT ∧
      r.final.heap = some head :: List.replicate ms.length none ∧
      r.out = (ms.map chars_before_zero).map OutLine.collected_msg ++
        [OutLine.collected_total (toInt32 ms.length), OutLine.all_collected] := by
  have hm := main_after_join_built ms fuel hfuel hterm
  rw [if_neg (not_not.mpr hcount)] at hm
  exact ⟨built ms, _, _, append_all_init ms, load_head_built ms, rfl, hm, rfl, rfl, hcount, rfl,
    rfl⟩

/-- C4 (amended): the drain made by `main` (which happens when the count check
passed), on buffers that each hold a zero byte, prints the string of every
message in arrival order and frees every message node, but does not reset the
collector: `list_handle` is unchanged, so `count` keeps the value 20 it had
before the drain, and the cell of `head` is unchanged, its `next` field still
holding the address of the first, now freed, node. -/
theorem drain_frees_nodes_keeps_handle (ms : List Msg) (fuel : Nat) (hfuel : ms.length ≤ fuel)
    (hterm : ∀ m ∈ ms, 0 ∈ m)
    (hcount : ms.length % UINT32_SIZE = MAX_CLIENTS * NUM_MSG_PER_CLIENT) :
    ∃ c head r, append_all initCollector ms = some c ∧
      load c.heap headAddr = some head ∧
      main_after_join fuel c = some r ∧
      r.out = (ms.map chars_before_zero).map OutLine.collected_msg ++
        [OutLine.collected_total (toInt32 ms.length), OutLine.all_collected] ∧
      r.final.lh = c.lh ∧
      r.final.lh.count = MAX_CLIENTS * NUM_MSG_PER_CLIENT ∧
      r.final.heap = some head :: List.replicate ms.length none ∧
      load r.final.heap headAddr = some head ∧
      head.next = (if ms = [] then none else some 1) := by
  obtain ⟨c, head, r, a1, a2, a3, a4, _, a6, a7, a8, a9⟩ :=
    drained_state ms fuel hfuel hterm hcount
  refine ⟨c, head, r, a1, a2, a4, a9, a6, a7, a8, ?_, a3⟩
  rw [a8]; exact load_head_cons _ _

/-- Witness of C4: the drain after four sessions of five messages. -/
theorem drain_frees_nodes_keeps_handle_witness :
    four_sessions.length ≤ 20 ∧
    (∀ m ∈ four_sessions, 0 ∈ m) ∧
    four_sessions.length % UINT32_SIZE = MAX_CLIENTS * NUM_MSG_PER_CLIENT ∧
    ∃ c head r, append_all initCollector four_sessions = some c ∧
      load c.heap headAddr = some head ∧
      main_after_join 20 c = some r ∧
      r.out = (four_sessions.map chars_before_zero).map OutLine.collected_msg ++
        [OutLine.collected_total (toInt32 four_sessions.length), OutLine.all_collected] ∧
      r.final.lh = c.lh ∧
      r.final.lh.count = MAX_CLIENTS * NUM_MSG_PER_CLIENT ∧
      r.final.heap = some head :: List.replicate four_sessions.length none ∧
      load r.final.heap headAddr = some head ∧
      head.next = (if four_sessions = [] then none else some 1) :=
  ⟨by decide, by decide, by decide,
    drain_frees_nodes_keeps_handle four_sessions 20 (by decide) (by decide) (by decide)⟩

/-- C4 (counterexample): after the drain of twenty messages by `main` the count
is still 20 and `head.next` is still the address of the first node. -/
theorem drain_leaves_count_twenty :
    ∃ c head r, append_all initCollector four_sessions = some c ∧
      main_after_join 20 c = some r ∧ r.status = 0 ∧
      r.final.lh.count = 20 ∧ r.final.lh.count ≠ 0 ∧
      load r.final.heap headAddr = some head ∧ head.next = some 1 ∧ head.next ≠ none := by
  obtain ⟨c, head, r, a1, _, a3, a4, a5, _, a7, a8, _⟩ :=
    drained_state four_sessions 20 (by decide) four_sessions_terminated (by decide)
  have hne : four_sessions ≠ [] := by decide
  rw [if_neg hne] at a3
  have h20 : r.final.lh.count = 20 := a7
  refine ⟨c, head, r, a1, a4, a5, h20, ?_, ?_, a3, ?_⟩
  · rw [h20]; decide
  · rw [a8]; exact load_head_cons _ _
  · rw [a3]; exact Option.some_ne_none 1

/-! ## The wait loop of `main` -/

/-- Along a run the collector holds the messages appended so far, and `main`
is past its wait loop only if it was so at the start or twenty appends have
been made. -/
theorem run_events_built : ∀ (es : List RunEvent) (ms : List Msg) (ph : CoordPhase),
    ∃ ph1, run_events { c := built ms, phase := ph } es
        = some { c := built (ms ++ appended es), phase := ph1 } ∧
      (ph1 = CoordPhase.stopping →
        ph = CoordPhase.stopping ∨
          MAX_CLIENTS * NUM_MSG_PER_CLIENT ≤ (ms ++ appended es).length)
  | [], ms, ph => ⟨ph, by simp [run_events, appended], fun h => Or.inl h⟩
  | RunEvent.append m :: es, ms, ph => by
    obtain ⟨ph1, h1, h2⟩ := run_events_built es (ms ++ [m]) ph
    refine ⟨ph1, ?_, ?_⟩
    · simp only [run_events, run_step, append_msg_built, Option.map_some', Option.some_bind,
        appended]
      rw [h1]; simp
    · simpa [appended] using h2
  | RunEvent.poll :: es, ms, CoordPhase.stopping => by
    obtain ⟨ph1, h1, _⟩ := run_events_built es ms CoordPhase.stopping
    exact ⟨ph1, by simpa [run_events, run_step, appended] using h1, fun _ => Or.inl rfl⟩
  | RunEvent.poll :: es, ms, CoordPhase.waiting => by
    by_cases hc : (built ms).lh.count ≥ MAX_CLIENTS * NUM_MSG_PER_CLIENT
    · obtain ⟨ph1, h1, _⟩ := run_events_built es ms CoordPhase.stopping
      refine ⟨ph1, ?_, fun _ => Or.inr ?_⟩
      · simp only [run_events, run_step, hc, if_true, Option.some_bind, appended]
        exact h1
      · have h3 : ms.length % UINT32_SIZE ≤ ms.length := Nat.mod_le _ _
        have h4 : MAX_CLIENTS * NUM_MSG_PER_CLIENT ≤ ms.length % UINT32_SIZE := hc
        simp only [appended, List.length_append]
        omega
    · obtain ⟨ph1, h1, h2⟩ := run_events_built es ms CoordPhase.waiting
      refine ⟨ph1, ?_, ?_⟩
      · simp only [run_events, run_step, hc, if_false, Option.some_bind, appended]
        exact h1
      · simpa [appended] using h2

/-- The shortfall branch of `main` is the one taken when the count differs from
the expected total; it leaves the collector as it found it. -/
theorem shortfall_branch (fuel : Nat) (c : Collector) (r : MainResult)
    (h : main_after_join fuel c = some r) (hs : r.out = [OutLine.not_enough]) :
    c.lh.count ≠ MAX_CLIENTS * NUM_MSG_PER_CLIENT ∧ r.final = c ∧ r.status = 1 := by
  unfold main_after_join at h
  by_cases hc : c.lh.count ≠ MAX_CLIENTS * NUM_MSG_PER_CLIENT
  · rw [if_pos hc] at h
    cases h
    exact ⟨hc, rfl, rfl⟩
  · rw [if_neg hc] at h
    exfalso
    cases h1 : load c.heap headAddr with
    | none => simp [h1] at h
    | some head =>
      cases h2 : collect_all fuel c.heap head with
      | none => simp [h1, h2] at h
      | some res =>
        obtain ⟨hp, collected, msgs⟩ := res
        simp only [h1, h2] at h
        have hlen : r.out.length = 1 := by rw [hs]; rfl
        split at h <;> cases h <;> simp at hlen

theorem run_events_append (s : RunState) : ∀ (es1 es2 : List RunEvent),
    run_events s (es1 ++ es2) = (run_events s es1).bind (fun s1 => run_events s1 es2) := by
  intro es1
  induction es1 generalizing s with
  | nil => intro es2; simp [run_events]
  | cons e es1 ih =>
    intro es2
    simp only [List.cons_append, run_events]
    cases h : run_step s e with
    | none => simp
    | some s1 => simp [ih s1 es2]

theorem run_events_appends : ∀ (ms ms0 : List Msg) (ph : CoordPhase),
    run_events { c := built ms0, phase := ph } (ms.map RunEvent.append)
      = some { c := built (ms0 ++ ms), phase := ph }
  | [], ms0, ph => by simp [run_events]
  | m :: ms, ms0, ph => by
    simp only [List.map_cons, run_events, run_step, append_msg_built, Option.map_some',
      Option.some_bind]
    rw [run_events_appends ms (ms0 ++ [m]) ph]
    simp

/-- A run in which one more message is appended after `main` has seen the
twentieth. -/
theorem overshoot_run (ms : List Msg) (m : Msg) (fuel : Nat) (h : ms.length = 20) :
    main fuel (ms.map RunEvent.append ++ [RunEvent.poll, RunEvent.append m])
      = some (MainOutcome.returned
          { status := 1, out := [OutLine.not_enough], final := built (ms ++ [m]) }) := by
  have h1 := run_events_appends ms [] CoordPhase.waiting
  rw [← initCollector_eq, List.nil_append] at h1
  have hc : (built ms).lh.count ≥ MAX_CLIENTS * NUM_MSG_PER_CLIENT := by
    show MAX_CLIENTS * NUM_MSG_PER_CLIENT ≤ ms.length % UINT32_SIZE
    rw [h]; decide
  have hc1 : (built (ms ++ [m])).lh.count ≠ MAX_CLIENTS * NUM_MSG_PER_CLIENT := by
    show (ms ++ [m]).length % UINT32_SIZE ≠ MAX_CLIENTS * NUM_MSG_PER_CLIENT
    rw [List.length_append, h, List.length_singleton]; decide
  simp only [main, run_events_append, h1, Option.some_bind, run_events, run_step, hc,
    if_true, append_msg_built, Option.map_some', main_after_join]
  rw [if_pos hc1]
  rfl

/-- C5 (amended): whenever the coordinator takes the shortfall branch (prints
"Not enough messages were received!" and returns 1) the final count differs
from the expected total 20; in a run in which the count changes only by appends,
fewer than `2 ^ 32` of them, the final count is the number of appends and is
strictly greater than 20, because the wait loop is left only at a count of 20
or more. -/
theorem shortfall_means_count_differs (fuel : Nat) (es : List RunEvent) (r : MainResult)
    (hret : main fuel es = some (MainOutcome.returned r))
    (hshort : r.out = [OutLine.not_enough]) :
    r.status = 1 ∧ r.final.lh.count ≠ MAX_CLIENTS * NUM_MSG_PER_CLIENT ∧
      MAX_CLIENTS * NUM_MSG_PER_CLIENT = 20 ∧
      ((appended es).length < UINT32_SIZE →
        r.final.lh.count = (appended es).length ∧ 20 < r.final.lh.count) := by
  obtain ⟨ph1, h1, h2⟩ := run_events_built es [] CoordPhase.waiting
  rw [← initCollector_eq, List.nil_append] at h1
  rw [List.nil_append] at h2
  unfold main at hret
  rw [h1] at hret
  cases ph1 with
  | waiting => simp at hret
  | stopping =>
    simp only [Option.map_eq_some'] at hret
    obtain ⟨r1, hr1, hr2⟩ := hret
    cases hr2
    obtain ⟨b1, b2, b3⟩ := shortfall_branch fuel _ r hr1 hshort
    have h20 : MAX_CLIENTS * NUM_MSG_PER_CLIENT = 20 := by decide
    have hge : MAX_CLIENTS * NUM_MSG_PER_CLIENT ≤ (appended es).length := by
      rcases h2 rfl with h | h
      · cases h
      · exact h
    refine ⟨b3, by rw [b2]; exact b1, h20, fun hlt => ?_⟩
    have hcnt : r.final.lh.count = (appended es).length := by
      rw [b2]; exact Nat.mod_eq_of_lt hlt
    refine ⟨hcnt, ?_⟩
    have hne : r.final.lh.count ≠ 20 := by rw [b2, ← h20]; exact b1
    omega

/-- Witness of C5: the twenty messages of four sessions, the poll that sees
them, and one more message appended before the workers are stopped. -/
theorem shortfall_means_count_differs_witness :
    main 21 (four_sessions.map RunEvent.append ++
        [RunEvent.poll, RunEvent.append (padded [72, 105])])
      = some (MainOutcome.returned
          { status := 1, out := [OutLine.not_enough],
            final := built (four_sessions ++ [padded [72, 105]]) }) ∧
    (built (four_sessions ++ [padded [72, 105]])).lh.count
      ≠ MAX_CLIENTS * NUM_MSG_PER_CLIENT :=
  ⟨overshoot_run four_sessions (padded [72, 105]) 21 four_sessions_length,
   (shortfall_means_count_differs 21 _ _
      (overshoot_run four_sessions (padded [72, 105]) 21 four_sessions_length) rfl).2.1⟩

/-- C5 (counterexample): twenty messages are appended, `main` sees the count 20
and leaves its wait loop, a twenty-first message is appended before the workers
stop; `main` then takes the shortfall branch with a final count of 21, which is
not below 20. -/
theorem shortfall_branch_with_count_21 :
    ∃ r, main 21 (four_sessions.map RunEvent.append ++
        [RunEvent.poll, RunEvent.append (padded [72, 105])])
        = some (MainOutcome.returned r) ∧
      r.out = [OutLine.not_enough] ∧ r.status = 1 ∧
      r.final.lh.count = 21 ∧ ¬ (r.final.lh.count < MAX_CLIENTS * NUM_MSG_PER_CLIENT) := by
  refine ⟨_, overshoot_run four_sessions (padded [72, 105]) 21 four_sessions_length,
    rfl, rfl, ?_, ?_⟩
  · show (four_sessions ++ [padded [72, 105]]).length % UINT32_SIZE = 21
    rw [List.length_append, four_sessions_length, List.length_singleton]; decide
  · show ¬ ((four_sessions ++ [padded [72, 105]]).length % UINT32_SIZE
        < MAX_CLIENTS * NUM_MSG_PER_CLIENT)
    rw [List.length_append, four_sessions_length, List.length_singleton]; decide

/-! ## The connection worker -/

/-- The loop body on the collector holding `ms`, by outcome of the read. -/
theorem run_client_body_built (ms : List Msg) (buf : Msg) (r : ReadOutcome) :
    run_client_body (built ms) buf r =
      match r with
      | ReadOutcome.fail errno =>
        if errno = EAGAIN ∨ errno = EWOULDBLOCK then
          some (built ms, buf, LoopCtl.next_iteration, [])
        else some (built ms, buf, LoopCtl.leave_loop, [ClientEvent.perror_read])
      | ReadOutcome.got bytes =>
        if 0 < bytes.length then
          some (built (ms ++ [bytes ++ buf.drop bytes.length]),
            bytes ++ buf.drop bytes.length, LoopCtl.next_iteration,
            [ClientEvent.lock, ClientEvent.add_to_list_call (bytes ++ buf.drop bytes.length),
             ClientEvent.unlock])
        else some (built ms, bytes ++ buf.drop bytes.length, LoopCtl.next_iteration, [])
    := by
  cases r with
  | fail errno =>
    by_cases h : errno = EAGAIN ∨ errno = EWOULDBLOCK
    · have hb : (errno == EAGAIN || errno == EWOULDBLOCK) = true := by simpa using h
      simp only [run_client_body, bytes_read, errno_after, fill_buf, hb, h, if_true,
        Bool.not_true]
      rfl
    · have hb : (errno == EAGAIN || errno == EWOULDBLOCK) = false := by
        simpa [not_or] using h
      simp only [run_client_body, bytes_read, errno_after, fill_buf, hb, h, if_true, if_false,
        Bool.not_false]
  | got bytes =>
    have hne : ((bytes.length : Nat) : Int) ≠ -1 := by omega
    by_cases h : 0 < bytes.length
    · have h1 : ((bytes.length : Nat) : Int) > 0 := by omega
      simp only [run_client_body, bytes_read, fill_buf, hne, if_false, h1, if_true,
        append_msg_built, Option.map_some', h]
    · have h1 : ¬ ((bytes.length : Nat) : Int) > 0 := by omega
      simp only [run_client_body, bytes_read, fill_buf, hne, if_false, h1, h]

/-- Splitting a trace behind a block of events none of which is `x`. -/
theorem split_behind {α : Type} (x : α) : ∀ (evs tr pre post : List α), x ∉ evs →
    evs ++ tr = pre ++ x :: post → ∃ pre1, pre = evs ++ pre1 ∧ tr = pre1 ++ x :: post
  | [], tr, pre, post, _, h => ⟨pre, rfl, h⟩
  | e :: evs, tr, [], post, hx, h => by
    simp only [List.cons_append, List.nil_append, List.cons.injEq] at h
    exact absurd h.1.symm (by intro he; exact hx (by simp [he]))
  | e :: evs, tr, p :: pre, post, hx, h => by
    simp only [List.cons_append, List.cons.injEq] at h
    obtain ⟨pre1, h1, h2⟩ := split_behind x evs tr pre post
      (fun hm => hx (List.mem_cons_of_mem _ hm)) h.2
    exact ⟨pre1, by rw [h.1, h1]; rfl, h2⟩

/-- One step of a worker on the collector holding `ms`: it is defined, leaves a
collector of the same form, never goes back from `closing` or `returned` into
the loop, and emits `saw_run false` only alone and on the way to `closing`. -/
theorem client_step_built (ms : List Msg) (w : ClientState) (e : ClientEnv) :
    ∃ ms1 w1 evs, client_step (built ms) w e = some (built ms1, w1, evs) ∧
      ((w.pc = ClientPc.closing ∨ w.pc = ClientPc.returned) →
        (w1.pc = ClientPc.closing ∨ w1.pc = ClientPc.returned) ∧
          ∀ m, ClientEvent.add_to_list_call m ∉ evs) ∧
      (ClientEvent.saw_run false ∈ evs →
        evs = [ClientEvent.saw_run false] ∧ w1.pc = ClientPc.closing) := by
  obtain ⟨pc, cfd, buf⟩ := w
  cases pc with
  | loop_test =>
    by_cases h : e.run
    · exact ⟨ms, _, _, by simp only [client_step, h, if_true, if_false]; rfl, by simp, by simp⟩
    · exact ⟨ms, _, _, by simp only [client_step, h, if_true, if_false]; rfl, by simp, by simp⟩
  | reading =>
    have hb := run_client_body_built ms buf e.rd
    cases hr : e.rd with
    | fail errno =>
      rw [hr] at hb
      by_cases h : errno = EAGAIN ∨ errno = EWOULDBLOCK
      · simp only [h, if_true] at hb
        exact ⟨ms, _, _, by simp only [client_step, hr, hb, Option.map_some']; rfl, by simp,
          by simp⟩
      · simp only [h, if_false] at hb
        exact ⟨ms, _, _, by simp only [client_step, hr, hb, Option.map_some']; rfl, by simp,
          by simp⟩
    | got bytes =>
      rw [hr] at hb
      by_cases h : 0 < bytes.length
      · simp only [h, if_true] at hb
        exact ⟨_, _, _, by simp only [client_step, hr, hb, Option.map_some']; rfl, by simp,
          by simp⟩
      · simp only [h, if_false] at hb
        exact ⟨ms, _, _, by simp only [client_step, hr, hb, Option.map_some']; rfl, by simp,
          by simp⟩
  | closing =>
    refine ⟨ms, _, _, by simp only [client_step]; rfl, ?_, ?_⟩
    · intro _
      refine ⟨Or.inr rfl, ?_⟩
      intro m
      by_cases h : e.close_ret = -1 <;> simp [h]
    · by_cases h : e.close_ret = -1 <;> simp [h]
  | returned => exact ⟨ms, _, _, by simp only [client_step]; rfl, by simp, by simp⟩

/-- A run of a worker on the collector holding `ms`: it is defined for every
sequence of answers; from `closing` or `returned` on it never appends; and
nothing is appended behind a `saw_run false`. -/
theorem run_client_built : ∀ (es : List ClientEnv) (ms : List Msg) (w : ClientState),
    ∃ ms1 w1 tr, run_client (built ms) w es = some (built ms1, w1, tr) ∧
      ((w.pc = ClientPc.closing ∨ w.pc = ClientPc.returned) →
        ∀ m, ClientEvent.add_to_list_call m ∉ tr) ∧
      (∀ pre post, tr = pre ++ ClientEvent.saw_run false :: post →
        ∀ m, ClientEvent.add_to_list_call m ∉ post)
  | [], ms, w => ⟨ms, w, [], rfl, by simp, by simp⟩
  | e :: es, ms, w => by
    obtain ⟨ms1, w1, evs, hstep, hq, hs⟩ := client_step_built ms w e
    obtain ⟨ms2, w2, tr1, hrun, hq1, hp1⟩ := run_client_built es ms1 w1
    refine ⟨ms2, w2, evs ++ tr1, ?_, ?_, ?_⟩
    · simp only [run_client, hstep, Option.some_bind, hrun, Option.map_some']
    · intro hw m hm
      rcases List.mem_append.mp hm with h | h
      · exact (hq hw).2 m h
      · exact hq1 (hq hw).1 m h
    · intro pre post htr m
      by_cases hmem : ClientEvent.saw_run false ∈ evs
      · obtain ⟨hevs, hpc⟩ := hs hmem
        rw [hevs] at htr
        cases pre with
        | nil =>
          simp only [List.singleton_append, List.nil_append, List.cons.injEq, true_and] at htr
          rw [← htr]
          exact hq1 (Or.inl hpc) m
        | cons p pre1 =>
          simp only [List.singleton_append, List.cons_append, List.cons.injEq] at htr
          exact hp1 pre1 post htr.2 m
      · obtain ⟨pre1, _, h2⟩ := split_behind _ evs tr1 pre post hmem htr
        exact hp1 pre1 post h2 m

/-- C6: for every collector reached by appends, every descriptor, every initial
buffer and every sequence of answers of the environment (values of the run flag,
outcomes of `read`, results of `close`), the run of `run_client` is defined and,
in the trace of its calls, no `add_to_list` comes after the loop test has read
the run flag as false. -/
theorem no_append_after_stop_seen (ms : List Msg) (cfd : Int) (buf : Msg)
    (es : List ClientEnv) :
    ∃ c0 c w tr, append_all initCollector ms = some c0 ∧
      run_client c0 (client_start cfd buf) es = some (c, w, tr) ∧
      ∀ pre post, tr = pre ++ ClientEvent.saw_run false :: post →
        ∀ m, ClientEvent.add_to_list_call m ∉ post := by
  obtain ⟨ms1, w1, tr, h1, _, h3⟩ := run_client_built es ms (client_start cfd buf)
  exact ⟨built ms, built ms1, w1, tr, append_all_init ms, h1, h3⟩

/-- Witness of C6: a worker that reads one message and then sees its run flag
cleared appends once, before the flag is seen, and only closes afterwards. -/
theorem no_append_after_stop_seen_witness :
    (run_client initCollector (client_start 5 [0, 0])
        [⟨true, ReadOutcome.fail 0, 0⟩, ⟨true, ReadOutcome.got [72, 105], 0⟩,
         ⟨false, ReadOutcome.fail 0, 0⟩, ⟨false, ReadOutcome.fail 0, 0⟩]).map (fun r => r.2)
      = some ({ pc := ClientPc.returned, cfd := 5, msg_buf := [72, 105] },
          [ClientEvent.saw_run true, ClientEvent.read_call 5, ClientEvent.lock,
           ClientEvent.add_to_list_call [72, 105], ClientEvent.unlock,
           ClientEvent.saw_run false, ClientEvent.close_call 5]) ∧
    ∃ c0 c w tr, append_all initCollector [] = some c0 ∧
      run_client c0 (client_start 5 [0, 0])
        [⟨true, ReadOutcome.fail 0, 0⟩, ⟨true, ReadOutcome.got [72, 105], 0⟩,
         ⟨false, ReadOutcome.fail 0, 0⟩, ⟨false, ReadOutcome.fail 0, 0⟩] = some (c, w, tr) ∧
      ∀ pre post, tr = pre ++ ClientEvent.saw_run false :: post →
        ∀ m, ClientEvent.add_to_list_call m ∉ post :=
  ⟨by decide, no_append_after_stop_seen [] 5 [0, 0] _⟩

/-- Count after one append to the collector holding `ms`. -/
theorem count_after_append (ms : List Msg) (m : Msg) :
    (built (ms ++ [m])).lh.count = ((built ms).lh.count + 1) % UINT32_SIZE := by
  show (ms ++ [m]).length % UINT32_SIZE = (ms.length % UINT32_SIZE + 1) % UINT32_SIZE
  simp [Nat.add_mod]

/-- C10 (amended): one iteration of the worker loop on a collector reached by
appends, by outcome of the read.  A would-block result (-1 with `EAGAIN` or
`EWOULDBLOCK`) leaves the collector unchanged and the loop goes on; a read of
`n > 0` bytes appends exactly one message (the buffer after the read), `count`
becoming `count + 1` modulo `2 ^ 32`, which is `count + 1` unless `count` was
`2 ^ 32 - 1`, and the loop goes on; any other -1 result leaves the collector
unchanged and ends the loop. -/
theorem loop_iteration_by_read_outcome (ms : List Msg) (buf : Msg) :
    ∃ c0, append_all initCollector ms = some c0 ∧
    (∀ errno, errno = EAGAIN ∨ errno = EWOULDBLOCK →
      run_client_body c0 buf (ReadOutcome.fail errno)
        = some (c0, buf, LoopCtl.next_iteration, [])) ∧
    (∀ bytes : List Nat, 0 < bytes.length →
      ∃ m c1, m = bytes ++ buf.drop bytes.length ∧
        run_client_body c0 buf (ReadOutcome.got bytes)
          = some (c1, m, LoopCtl.next_iteration,
              [ClientEvent.lock, ClientEvent.add_to_list_call m, ClientEvent.unlock]) ∧
        append_all initCollector (ms ++ [m]) = some c1 ∧
        c1.lh.count = (c0.lh.count + 1) % UINT32_SIZE ∧
        (c0.lh.count + 1 < UINT32_SIZE → c1.lh.count = c0.lh.count + 1)) ∧
    (∀ errno, ¬ (errno = EAGAIN ∨ errno = EWOULDBLOCK) →
      run_client_body c0 buf (ReadOutcome.fail errno)
        = some (c0, buf, LoopCtl.leave_loop, [ClientEvent.perror_read])) := by
  refine ⟨built ms, append_all_init ms, ?_, ?_, ?_⟩
  · intro errno h
    rw [run_client_body_built]
    simp only [h, if_true]
  · intro bytes h
    refine ⟨_, _, rfl, ?_, append_all_init _, count_after_append _ _, fun hlt => ?_⟩
    · rw [run_client_body_built]
      simp only [h, if_true]
    · rw [count_after_append, Nat.mod_eq_of_lt hlt]
  · intro errno h
    rw [run_client_body_built]
    simp only [h, if_false]

/-- Witness of C10: the three cases on the collector holding one message; the
read of two bytes into a buffer of three leaves the third byte in the message. -/
theorem loop_iteration_by_read_outcome_witness :
    (append_all initCollector [[72, 105]]).bind (fun c0 =>
        (run_client_body c0 [0, 0, 0] (ReadOutcome.got [79, 75])).map (fun r =>
          (c0.lh.count, r.1.lh.count, r.2)))
      = some (1, 2, [79, 75, 0], LoopCtl.next_iteration,
          [ClientEvent.lock, ClientEvent.add_to_list_call [79, 75, 0], ClientEvent.unlock]) ∧
    ∃ c0, append_all initCollector [[72, 105]] = some c0 ∧
      run_client_body c0 [0, 0, 0] (ReadOutcome.fail EAGAIN)
        = some (c0, [0, 0, 0], LoopCtl.next_iteration, []) ∧
      run_client_body c0 [0, 0, 0] (ReadOutcome.fail 104)
        = some (c0, [0, 0, 0], LoopCtl.leave_loop, [ClientEvent.perror_read]) := by
  obtain ⟨c0, h0, h1, _, h3⟩ := loop_iteration_by_read_outcome [[72, 105]] [0, 0, 0]
  exact ⟨by decide, c0, h0, h1 EAGAIN (Or.inl rfl), h3 104 (by decide)⟩

/-- One read of data on the collector holding `n` empty buffers, `n + 1` a
multiple of `2 ^ 32`. -/
theorem append_at_wrap (n : Nat) (hn : n < UINT32_SIZE) (hn1 : (n + 1) % UINT32_SIZE = 0) :
    ∃ c0 c1 m, append_all initCollector (List.replicate n []) = some c0 ∧
      run_client_body c0 [] (ReadOutcome.got [72])
        = some (c1, m, LoopCtl.next_iteration,
            [ClientEvent.lock, ClientEvent.add_to_list_call m, ClientEvent.unlock]) ∧
      c0.lh.count = n ∧ c1.lh.count = 0 ∧ c1.lh.count ≠ c0.lh.count + 1 := by
  have hl : (List.replicate n ([] : Msg)).length = n := List.length_replicate _ _
  have h0 : (built (List.replicate n [])).lh.count = n := by
    show (List.replicate n ([] : Msg)).length % UINT32_SIZE = n
    rw [hl]; exact Nat.mod_eq_of_lt hn
  have h1 : (built (List.replicate n [] ++ [[72]])).lh.count = 0 := by
    rw [count_after_append, h0]; exact hn1
  refine ⟨built (List.replicate n []), built (List.replicate n [] ++ [[72]]), [72],
    append_all_init _, ?_, h0, h1, ?_⟩
  · rw [run_client_body_built]
    rfl
  · rw [h1, h0]; omega

/-- C10 (counterexample): on the collector reached by `2 ^ 32 - 1` appends a
read of one byte appends a message and takes `count` from `2 ^ 32 - 1` to 0. -/
theorem count_not_raised_at_uint32_max :
    ∃ c0 c1 m, append_all initCollector (List.replicate (2 ^ 32 - 1) []) = some c0 ∧
      run_client_body c0 [] (ReadOutcome.got [72])
        = some (c1, m, LoopCtl.next_iteration,
            [ClientEvent.lock, ClientEvent.add_to_list_call m, ClientEvent.unlock]) ∧
      c0.lh.count = 2 ^ 32 - 1 ∧ c1.lh.count = 0 ∧ c1.lh.count ≠ c0.lh.count + 1 :=
  append_at_wrap (2 ^ 32 - 1) (by decide) (by decide)

/-! ## The acceptor -/

/-- One iteration of the accept loop keeps the session count within the array,
and is defined. -/
theorem acceptor_iter_bounded (s : AcceptorState) (e : AcceptorEnv)
    (hn : s.num_clients ≤ MAX_CLIENTS) (hl : s.slots.length = MAX_CLIENTS) :
    ∃ s1 evs, acceptor_iter s e = some (s1, evs) ∧
      s1.num_clients ≤ MAX_CLIENTS ∧ s1.slots.length = MAX_CLIENTS ∧
      (∀ n, AcceptorEvent.accept_call n ∈ evs → n = s.num_clients ∧ n < MAX_CLIENTS) ∧
      (∀ i fd, AcceptorEvent.slot_write i fd ∈ evs → i = s.num_clients ∧ i < MAX_CLIENTS) ∧
      (∀ i, AcceptorEvent.thread_create i ∈ evs → 0 ≤ i ∧ i < (MAX_CLIENTS : Int)) := by
  by_cases hr : e.run
  · by_cases hlt : s.num_clients < MAX_CLIENTS
    · cases ha : e.acc with
      | fail errno =>
        by_cases he : (errno == EAGAIN || errno == EWOULDBLOCK) = true
        · have hres : acceptor_iter s e = some (s, [AcceptorEvent.saw_run true,
              AcceptorEvent.accept_call s.num_clients]) := by
            simp only [acceptor_iter, hr, hlt, ha, he, Bool.not_true, if_true, if_false]
            rfl
          refine ⟨_, _, hres, hn, hl, ?_, ?_, ?_⟩ <;> simp [hlt]
        · have hres : acceptor_iter s e = some ({ s with pc := AcceptorPc.exited },
              [AcceptorEvent.saw_run true, AcceptorEvent.accept_call s.num_clients,
               AcceptorEvent.handle_error_accept]) := by
            simp only [acceptor_iter, hr, hlt, ha, he, Bool.not_true, Bool.not_false, if_true,
              if_false]
            rfl
          refine ⟨_, _, hres, hn, hl, ?_, ?_, ?_⟩ <;> simp [hlt]
      | conn cfd =>
        have hlt2 : s.num_clients < s.slots.length := by rw [hl]; exact hlt
        have h4 : MAX_CLIENTS = 4 := rfl
        have hmod : (s.num_clients + 1) % UINT16_SIZE = s.num_clients + 1 :=
          Nat.mod_eq_of_lt (by rw [h4] at hlt; unfold UINT16_SIZE; omega)
        have hidx : (0 : Int) ≤ ((s.num_clients + 1 : Nat) : Int) - 1 ∧
            ((s.num_clients + 1 : Nat) : Int) - 1 < (MAX_CLIENTS : Int) := by
          rw [h4] at hlt ⊢; omega
        have hres : acceptor_iter s e = some
            ({ s with num_clients := s.num_clients + 1,
                      slots := s.slots.set s.num_clients (some { run := true, cfd := cfd }) },
              [AcceptorEvent.saw_run true, AcceptorEvent.accept_call s.num_clients,
               AcceptorEvent.slot_write s.num_clients cfd,
               AcceptorEvent.thread_create (((s.num_clients + 1 : Nat) : Int) - 1)]) := by
          simp only [acceptor_iter, hr, hlt, ha, hlt2, hmod, hidx, Bool.not_true, if_true,
            if_false, and_self]
          rfl
        refine ⟨_, _, hres, ?_, ?_, ?_, ?_, ?_⟩
        · exact hlt
        · simp [hl]
        · simp [hlt]
        · simp [hlt]
        · intro i hi
          simp only [List.mem_cons, AcceptorEvent.thread_create.injEq, List.mem_singleton,
            List.not_mem_nil, or_false, false_or, reduceCtorEq] at hi
          rw [hi]; exact hidx
    · have hres : acceptor_iter s e = some (s, [AcceptorEvent.saw_run true]) := by
        simp only [acceptor_iter, hr, hlt, Bool.not_true, if_true, if_false]
        rfl
      refine ⟨_, _, hres, hn, hl, ?_, ?_, ?_⟩ <;> simp
  · have hres : acceptor_iter s e = some ({ s with pc := AcceptorPc.shutting_down },
        [AcceptorEvent.saw_run false]) := by
      simp only [acceptor_iter, hr, Bool.not_false, if_true]
    refine ⟨_, _, hres, hn, hl, ?_, ?_, ?_⟩ <;> simp

theorem acceptor_loop_bounded : ∀ (es : List AcceptorEnv) (s : AcceptorState),
    s.num_clients ≤ MAX_CLIENTS → s.slots.length = MAX_CLIENTS →
    ∃ s1 tr, acceptor_loop s es = some (s1, tr) ∧
      s1.num_clients ≤ MAX_CLIENTS ∧ s1.slots.length = MAX_CLIENTS ∧
      (∀ n, AcceptorEvent.accept_call n ∈ tr → n < MAX_CLIENTS) ∧
      (∀ i fd, AcceptorEvent.slot_write i fd ∈ tr → i < MAX_CLIENTS) ∧
      (∀ i, AcceptorEvent.thread_create i ∈ tr → 0 ≤ i ∧ i < (MAX_CLIENTS : Int))
  | [], s, hn, hl => ⟨s, [], rfl, hn, hl, by simp, by simp, by simp⟩
  | e :: es, s, hn, hl => by
    by_cases hpc : s.pc = AcceptorPc.accepting
    · obtain ⟨s1, evs, h1, h2, h3, h4, h5, h6⟩ := acceptor_iter_bounded s e hn hl
      obtain ⟨s2, tr, g1, g2, g3, g4, g5, g6⟩ := acceptor_loop_bounded es s1 h2 h3
      refine ⟨s2, evs ++ tr, ?_, g2, g3, ?_, ?_, ?_⟩
      · simp only [acceptor_loop, hpc, h1, Option.some_bind, g1, Option.map_some']
      · intro n hm
        rcases List.mem_append.mp hm with h | h
        · exact (h4 n h).2
        · exact g4 n h
      · intro i fd hm
        rcases List.mem_append.mp hm with h | h
        · exact (h5 i fd h).2
        · exact g5 i fd h
      · intro i hm
        rcases List.mem_append.mp hm with h | h
        · exact h6 i h
        · exact g6 i h
    · refine ⟨s, [], ?_, hn, hl, by simp, by simp, by simp⟩
      unfold acceptor_loop
      split
      · contradiction
      · rfl

/-- C9: for every sequence of answers of the environment (values of the run flag
and outcomes of `accept`), the accept loop of `run_acceptor` is defined and ends
in a state with `num_clients <= MAX_CLIENTS = 4`; every `accept` was called with
`num_clients < MAX_CLIENTS`, and every slot of `client_args` and `threads` that
was written has an index below `MAX_CLIENTS`. -/
theorem acceptor_capacity_invariant (es : List AcceptorEnv) :
    ∃ s tr, acceptor_loop acceptor_start es = some (s, tr) ∧
      s.num_clients ≤ MAX_CLIENTS ∧ MAX_CLIENTS = 4 ∧
      (∀ n, AcceptorEvent.accept_call n ∈ tr → n < MAX_CLIENTS) ∧
      (∀ i fd, AcceptorEvent.slot_write i fd ∈ tr → i < MAX_CLIENTS) ∧
      (∀ i, AcceptorEvent.thread_create i ∈ tr → 0 ≤ i ∧ i < (MAX_CLIENTS : Int)) := by
  obtain ⟨s, tr, h1, h2, _, h4, h5, h6⟩ :=
    acceptor_loop_bounded es acceptor_start (Nat.zero_le _) (by decide)
  exact ⟨s, tr, h1, h2, rfl, h4, h5, h6⟩

/-- Witness of C9: six connections offered, four accepted. -/
theorem acceptor_capacity_invariant_witness :
    (acceptor_loop acceptor_start
        (List.replicate 6 ⟨true, AcceptOutcome.conn 7⟩)).map (fun r => r.1.num_clients)
      = some 4 ∧
    ∃ s tr, acceptor_loop acceptor_start (List.replicate 6 ⟨true, AcceptOutcome.conn 7⟩)
        = some (s, tr) ∧
      s.num_clients ≤ MAX_CLIENTS ∧ MAX_CLIENTS = 4 ∧
      (∀ n, AcceptorEvent.accept_call n ∈ tr → n < MAX_CLIENTS) ∧
      (∀ i fd, AcceptorEvent.slot_write i fd ∈ tr → i < MAX_CLIENTS) ∧
      (∀ i, AcceptorEvent.thread_create i ∈ tr → 0 ≤ i ∧ i < (MAX_CLIENTS : Int)) :=
  ⟨by decide, acceptor_capacity_invariant _⟩

theorem stopped_slots_length (fds : List Int) : (stopped_slots fds).length = fds.length := by
  simp [stopped_slots]

/-- The shutdown loop over the live sessions `fds`, the sessions `pre` before
them being stopped already. -/
theorem shutdown_loop_live : ∀ (fds pre : List Int) (rest : List (Option client_args)),
    shutdown_loop fds.length pre.length (stopped_slots pre ++ (live_slots fds ++ rest))
      = some (stopped_slots (pre ++ fds) ++ rest, shutdown_trace pre.length fds)
  | [], pre, rest => by simp [shutdown_loop, shutdown_trace, live_slots]
  | fd :: fds, pre, rest => by
    have hget : (stopped_slots pre ++ (live_slots (fd :: fds) ++ rest))[pre.length]?
        = some (some { run := true, cfd := fd }) := by
      rw [List.getElem?_append_right (by rw [stopped_slots_length])]
      simp [stopped_slots_length, live_slots]
    have hset : (stopped_slots pre ++ (live_slots (fd :: fds) ++ rest)).set pre.length
        (some { run := false, cfd := fd })
          = stopped_slots (pre ++ [fd]) ++ (live_slots fds ++ rest) := by
      rw [List.set_append_right _ _ (by rw [stopped_slots_length])]
      simp [stopped_slots_length, live_slots, stopped_slots]
    have ih := shutdown_loop_live fds (pre ++ [fd]) rest
    simp only [List.length_append, List.length_singleton] at ih
    simp only [List.length_cons, shutdown_loop, hget, hset, ih, Option.map_some',
      shutdown_trace, List.append_assoc, List.singleton_append]

/-- Positions of the events of session `i` in a per-session shutdown. -/
theorem shutdown_trace_index : ∀ (fds : List Int) (k i : Nat) (fd : Int),
    fds[i]? = some fd →
    (shutdown_trace k fds)[3 * i]? = some (AcceptorEvent.set_stop (k + i)) ∧
    (shutdown_trace k fds)[3 * i + 1]? = some (AcceptorEvent.join (k + i)) ∧
    (shutdown_trace k fds)[3 * i + 2]? = some (AcceptorEvent.close_call fd)
  | [], _, _, _, h => by simp at h
  | f :: fds, k, 0, fd, h => by
    simp only [List.getElem?_cons_zero, Option.some.injEq] at h
    simp [shutdown_trace, h]
  | f :: fds, k, i + 1, fd, h => by
    simp only [List.getElem?_cons_succ] at h
    obtain ⟨h1, h2, h3⟩ := shutdown_trace_index fds (k + 1) i fd h
    have e0 : 3 * (i + 1) = 3 * i + 1 + 1 + 1 := by omega
    have e1 : 3 * (i + 1) + 1 = 3 * i + 1 + 1 + 1 + 1 := by omega
    have e2 : 3 * (i + 1) + 2 = 3 * i + 2 + 1 + 1 + 1 := by omega
    have ek : k + (i + 1) = k + 1 + i := by omega
    simp only [shutdown_trace, e0, e1, e2, ek, List.getElem?_cons_succ]
    exact ⟨h1, by simpa using h2, h3⟩

theorem accepted_fds_append : ∀ (a b : List AcceptorEvent),
    accepted_fds (a ++ b) = accepted_fds a ++ accepted_fds b
  | [], b => rfl
  | e :: a, b => by
    cases e <;> simp [accepted_fds, accepted_fds_append a b]

theorem live_slots_length (fds : List Int) : (live_slots fds).length = fds.length := by
  simp [live_slots]

/-- Writing the slot of a new session behind the `fds.length` sessions accepted
so far. -/
theorem set_next_slot (fds : List Int) (cfd : Int) (k : Nat) :
    (live_slots fds ++ List.replicate (k + 1) none).set fds.length
        (some { run := true, cfd := cfd })
      = live_slots (fds ++ [cfd]) ++ List.replicate k none := by
  rw [List.set_append_right _ _ (by rw [live_slots_length])]
  simp [live_slots_length, live_slots, List.replicate_succ]

/-- One iteration of the accept loop keeps the slots of the accepted sessions
in front of the array and `num_clients` equal to their number. -/
theorem acceptor_iter_slots (s : AcceptorState) (e : AcceptorEnv) (fds : List Int)
    (hs : s.slots = live_slots fds ++ List.replicate (MAX_CLIENTS - fds.length) none)
    (hn : s.num_clients = fds.length) (hle : fds.length ≤ MAX_CLIENTS) :
    ∃ s1 evs, acceptor_iter s e = some (s1, evs) ∧
      s1.slots = live_slots (fds ++ accepted_fds evs)
        ++ List.replicate (MAX_CLIENTS - (fds ++ accepted_fds evs).length) none ∧
      s1.num_clients = (fds ++ accepted_fds evs).length ∧
      (fds ++ accepted_fds evs).length ≤ MAX_CLIENTS := by
  have hl : s.slots.length = MAX_CLIENTS := by
    rw [hs, List.length_append, live_slots_length, List.length_replicate]; omega
  by_cases hr : e.run
  · by_cases hlt : s.num_clients < MAX_CLIENTS
    · cases ha : e.acc with
      | fail errno =>
        by_cases he : (errno == EAGAIN || errno == EWOULDBLOCK) = true
        · have hres : acceptor_iter s e = some (s, [AcceptorEvent.saw_run true,
              AcceptorEvent.accept_call s.num_clients]) := by
            simp only [acceptor_iter, hr, hlt, ha, he, Bool.not_true, if_true, if_false]
            rfl
          exact ⟨_, _, hres, by simpa [accepted_fds] using hs, by simpa [accepted_fds] using hn,
            by simpa [accepted_fds] using hle⟩
        · have hres : acceptor_iter s e = some ({ s with pc := AcceptorPc.exited },
              [AcceptorEvent.saw_run true, AcceptorEvent.accept_call s.num_clients,
               AcceptorEvent.handle_error_accept]) := by
            simp only [acceptor_iter, hr, hlt, ha, he, Bool.not_true, Bool.not_false, if_true,
              if_false]
            rfl
          exact ⟨_, _, hres, by simpa [accepted_fds] using hs, by simpa [accepted_fds] using hn,
            by simpa [accepted_fds] using hle⟩
      | conn cfd =>
        have hlt2 : s.num_clients < s.slots.length := by rw [hl]; exact hlt
        have h4 : MAX_CLIENTS = 4 := rfl
        have hmod : (s.num_clients + 1) % UINT16_SIZE = s.num_clients + 1 :=
          Nat.mod_eq_of_lt (by rw [h4] at hlt; unfold UINT16_SIZE; omega)
        have hidx : (0 : Int) ≤ ((s.num_clients + 1 : Nat) : Int) - 1 ∧
            ((s.num_clients + 1 : Nat) : Int) - 1 < (MAX_CLIENTS : Int) := by
          rw [h4] at hlt ⊢; omega
        have hres : acceptor_iter s e = some
            ({ s with num_clients := s.num_clients + 1,
                      slots := s.slots.set s.num_clients (some { run := true, cfd := cfd }) },
              [AcceptorEvent.saw_run true, AcceptorEvent.accept_call s.num_clients,
               AcceptorEvent.slot_write s.num_clients cfd,
               AcceptorEvent.thread_create (((s.num_clients + 1 : Nat) : Int) - 1)]) := by
          simp only [acceptor_iter, hr, hlt, ha, hlt2, hmod, hidx, Bool.not_true, if_true,
            if_false, and_self]
          rfl
        have hk : MAX_CLIENTS - fds.length = (MAX_CLIENTS - (fds.length + 1)) + 1 := by
          rw [hn] at hlt; omega
        refine ⟨_, _, hres, ?_, ?_, ?_⟩
        · simp only [accepted_fds, List.length_append, List.length_singleton]
          rw [hs, hn, hk, set_next_slot]
        · simp [accepted_fds, hn]
        · simp only [accepted_fds, List.length_append, List.length_singleton]
          rw [hn] at hlt; omega
    · have hres : acceptor_iter s e = some (s, [AcceptorEvent.saw_run true]) := by
        simp only [acceptor_iter, hr, hlt, Bool.not_true, if_true, if_false]
        rfl
      exact ⟨_, _, hres, by simpa [accepted_fds] using hs, by simpa [accepted_fds] using hn,
        by simpa [accepted_fds] using hle⟩
  · have hres : acceptor_iter s e = some ({ s with pc := AcceptorPc.shutting_down },
        [AcceptorEvent.saw_run false]) := by
      simp only [acceptor_iter, hr, Bool.not_false, if_true]
    exact ⟨_, _, hres, by simpa [accepted_fds] using hs, by simpa [accepted_fds] using hn,
      by simpa [accepted_fds] using hle⟩

theorem acceptor_loop_slots : ∀ (es : List AcceptorEnv) (s : AcceptorState) (fds : List Int),
    s.slots = live_slots fds ++ List.replicate (MAX_CLIENTS - fds.length) none →
    s.num_clients = fds.length → fds.length ≤ MAX_CLIENTS →
    ∃ s1 tr, acceptor_loop s es = some (s1, tr) ∧
      s1.slots = live_slots (fds ++ accepted_fds tr)
        ++ List.replicate (MAX_CLIENTS - (fds ++ accepted_fds tr).length) none ∧
      s1.num_clients = (fds ++ accepted_fds tr).length ∧
      (fds ++ accepted_fds tr).length ≤ MAX_CLIENTS
  | [], s, fds, hs, hn, hle =>
    ⟨s, [], rfl, by simpa [accepted_fds] using hs, by simpa [accepted_fds] using hn,
      by simpa [accepted_fds] using hle⟩
  | e :: es, s, fds, hs, hn, hle => by
    by_cases hpc : s.pc = AcceptorPc.accepting
    · obtain ⟨s1, evs, h1, h2, h3, h4⟩ := acceptor_iter_slots s e fds hs hn hle
      obtain ⟨s2, tr, g1, g2, g3, g4⟩ := acceptor_loop_slots es s1 _ h2 h3 h4
      refine ⟨s2, evs ++ tr, ?_, ?_, ?_, ?_⟩
      · simp only [acceptor_loop, hpc, h1, Option.some_bind, g1, Option.map_some']
      · rw [accepted_fds_append, ← List.append_assoc]; exact g2
      · rw [accepted_fds_append, ← List.append_assoc]; exact g3
      · rw [accepted_fds_append, ← List.append_assoc]; exact g4
    · refine ⟨s, [], ?_, by simpa [accepted_fds] using hs, by simpa [accepted_fds] using hn,
        by simpa [accepted_fds] using hle⟩
      unfold acceptor_loop
      split
      · contradiction
      · rfl

/-- C7 (the code at the failing input): one session is accepted on descriptor 5;
its worker polls once, sees its run flag cleared and returns, the acceptor then
runs its shutdown loop.  The worker calls `close(5)` (line 222) and the acceptor
calls `close(5)` again (line 266): descriptor 5 is passed to `close` twice. -/
theorem session_descriptor_closed_twice :
    ∃ sa ta c w tw,
      run_acceptor 3 [⟨true, AcceptOutcome.conn 5⟩, ⟨false, AcceptOutcome.fail EAGAIN⟩]
        = some (sa, ta) ∧
      run_client initCollector (client_start 5 [])
          [⟨true, ReadOutcome.fail EAGAIN, 0⟩, ⟨true, ReadOutcome.fail EAGAIN, 0⟩,
           ⟨false, ReadOutcome.fail EAGAIN, 0⟩, ⟨false, ReadOutcome.fail EAGAIN, 0⟩]
        = some (c, w, tw) ∧
      sa.pc = AcceptorPc.returned ∧ w.pc = ClientPc.returned ∧
      client_closes tw = [5] ∧ acceptor_closes ta = [5, 3] ∧
      (client_closes tw ++ acceptor_closes ta).count 5 = 2 := by
  refine ⟨_, _, _, _, _, rfl, rfl, ?_, ?_, ?_, ?_, ?_⟩ <;> decide

/-- The shutdown of an acceptor whose live sessions are `fds`: stop signal, join
and close of session `i` are the events `3 i`, `3 i + 1` and `3 i + 2`. -/
theorem acceptor_shutdown_live (sfd : Int) (s : AcceptorState) (fds : List Int)
    (rest : List (Option client_args))
    (hslots : s.slots = live_slots fds ++ rest) (hn : s.num_clients = fds.length) :
    ∃ s1 tr, acceptor_shutdown sfd s = some (s1, tr ++ [AcceptorEvent.close_call sfd]) ∧
      s1.slots = stopped_slots fds ++ rest ∧
      tr.length = 3 * fds.length ∧
      ∀ i fd, fds[i]? = some fd →
        tr[3 * i]? = some (AcceptorEvent.set_stop i) ∧
        tr[3 * i + 1]? = some (AcceptorEvent.join i) ∧
        tr[3 * i + 2]? = some (AcceptorEvent.close_call fd) := by
  have h := shutdown_loop_live fds [] rest
  simp only [List.length_nil, List.nil_append, stopped_slots, List.map_nil] at h
  refine ⟨{ s with pc := AcceptorPc.returned, slots := stopped_slots fds ++ rest },
    shutdown_trace 0 fds, ?_, ?_, ?_, ?_⟩
  · simp only [acceptor_shutdown, hslots, hn, h, Option.map_some', stopped_slots]
  · rfl
  · clear h hslots hn
    generalize 0 = k
    induction fds generalizing k with
    | nil => rfl
    | cons fd fds ih => simp only [shutdown_trace, List.length_cons, ih (k + 1)]; omega
  · intro i fd hi
    have := shutdown_trace_index fds 0 i fd hi
    simpa using this

/-- C8 (amended): for every sequence of answers of the environment the accept
loop is defined, and when it is left through its test the shutdown is defined
and handles the `n = num_clients` live sessions one after the other, in index
order: for session `i` it sets the stop signal, joins the worker and closes the
descriptor (events `3 i`, `3 i + 1`, `3 i + 2` of the shutdown), and only then
turns to session `i + 1`; the listening socket is closed last. -/
theorem shutdown_handles_sessions_in_turn (sfd : Int) (es : List AcceptorEnv) :
    ∃ s loop_tr, acceptor_loop acceptor_start es = some (s, loop_tr) ∧
      s.num_clients = (accepted_fds loop_tr).length ∧
      (s.pc = AcceptorPc.shutting_down →
        ∃ s1 tr, run_acceptor sfd es
            = some (s1, loop_tr ++ (tr ++ [AcceptorEvent.close_call sfd])) ∧
          tr.length = 3 * s.num_clients ∧
          ∀ i fd, (accepted_fds loop_tr)[i]? = some fd →
            tr[3 * i]? = some (AcceptorEvent.set_stop i) ∧
            tr[3 * i + 1]? = some (AcceptorEvent.join i) ∧
            tr[3 * i + 2]? = some (AcceptorEvent.close_call fd)) := by
  obtain ⟨s, loop_tr, h1, h2, h3, _⟩ :=
    acceptor_loop_slots es acceptor_start [] rfl rfl (Nat.zero_le _)
  rw [List.nil_append] at h2 h3
  refine ⟨s, loop_tr, h1, h3, fun hpc => ?_⟩
  obtain ⟨s1, tr, g1, _, g3, g4⟩ := acceptor_shutdown_live sfd s _ _ h2 h3
  refine ⟨s1, tr, ?_, by rw [g3, h3], g4⟩
  simp only [run_acceptor, h1, Option.some_bind, hpc, g1, Option.map_some']

/-- Witness of C8: two live sessions, on descriptors 5 and 6. -/
theorem shutdown_handles_sessions_in_turn_witness :
    run_acceptor 3 [⟨true, AcceptOutcome.conn 5⟩, ⟨true, AcceptOutcome.conn 6⟩,
        ⟨false, AcceptOutcome.fail EAGAIN⟩]
      = some ({ pc := AcceptorPc.returned, num_clients := 2,
                slots := [some { run := false, cfd := 5 }, some { run := false, cfd := 6 },
                          none, none] },
          [AcceptorEvent.saw_run true, AcceptorEvent.accept_call 0,
           AcceptorEvent.slot_write 0 5, AcceptorEvent.thread_create 0,
           AcceptorEvent.saw_run true, AcceptorEvent.accept_call 1,
           AcceptorEvent.slot_write 1 6, AcceptorEvent.thread_create 1,
           AcceptorEvent.saw_run false,
           AcceptorEvent.set_stop 0, AcceptorEvent.join 0, AcceptorEvent.close_call 5,
           AcceptorEvent.set_stop 1, AcceptorEvent.join 1, AcceptorEvent.close_call 6,
           AcceptorEvent.close_call 3]) ∧
    ∃ s loop_tr,
      acceptor_loop acceptor_start [⟨true, AcceptOutcome.conn 5⟩, ⟨true, AcceptOutcome.conn 6⟩,
        ⟨false, AcceptOutcome.fail EAGAIN⟩] = some (s, loop_tr) ∧
      s.num_clients = (accepted_fds loop_tr).length ∧
      (s.pc = AcceptorPc.shutting_down →
        ∃ s1 tr, run_acceptor 3 [⟨true, AcceptOutcome.conn 5⟩, ⟨true, AcceptOutcome.conn 6⟩,
              ⟨false, AcceptOutcome.fail EAGAIN⟩]
            = some (s1, loop_tr ++ (tr ++ [AcceptorEvent.close_call 3])) ∧
          tr.length = 3 * s.num_clients ∧
          ∀ i fd, (accepted_fds loop_tr)[i]? = some fd →
            tr[3 * i]? = some (AcceptorEvent.set_stop i) ∧
            tr[3 * i + 1]? = some (AcceptorEvent.join i) ∧
            tr[3 * i + 2]? = some (AcceptorEvent.close_call fd)) :=
  ⟨by decide, shutdown_handles_sessions_in_turn 3 _⟩

/-- C8 (counterexample): with two live sessions the acceptor joins the worker of
session 0 (event 10 of the run) before it sets the stop signal of session 1
(event 12). -/
theorem second_stop_signal_after_first_join :
    ∃ s tr,
      run_acceptor 3 [⟨true, AcceptOutcome.conn 5⟩, ⟨true, AcceptOutcome.conn 6⟩,
          ⟨false, AcceptOutcome.fail EAGAIN⟩] = some (s, tr) ∧
      s.num_clients = 2 ∧
      tr.indexOf (AcceptorEvent.join 0) = 10 ∧
      tr.indexOf (AcceptorEvent.set_stop 1) = 12 ∧
      ¬ (tr.indexOf (AcceptorEvent.set_stop 1) < tr.indexOf (AcceptorEvent.join 0)) := by
  refine ⟨_, _, rfl, ?_, ?_, ?_, ?_⟩ <;> decide

/-! ## End of stream -/

/-- One step of a worker that stands in its loop, on the collector holding
`ms`: the step is defined, does not return, and goes to `closing` exactly when
the loop test read the run flag as false or the read failed with an error other
than `EAGAIN` and `EWOULDBLOCK`. -/
theorem client_step_leaves_loop (ms : List Msg) (pc : ClientPc) (cfd : Int) (buf : Msg)
    (e : ClientEnv) (hpc : pc = ClientPc.loop_test ∨ pc = ClientPc.reading) :
    ∃ c1 w1 evs, client_step (built ms) { pc := pc, cfd := cfd, msg_buf := buf } e
        = some (c1, w1, evs) ∧
      w1.pc ≠ ClientPc.returned ∧
      (w1.pc = ClientPc.closing ↔
        (pc = ClientPc.loop_test ∧ e.run = false) ∨
        (pc = ClientPc.reading ∧
          ∃ errno, e.rd = ReadOutcome.fail errno ∧ errno ≠ EAGAIN ∧ errno ≠ EWOULDBLOCK)) := by
  rcases hpc with rfl | rfl
  · by_cases h : e.run
    · have hres : client_step (built ms)
          { pc := ClientPc.loop_test, cfd := cfd, msg_buf := buf } e
          = some (built ms, { pc := ClientPc.reading, cfd := cfd, msg_buf := buf },
              [ClientEvent.saw_run true]) := by
        simp only [client_step, h, if_true]
      exact ⟨_, _, _, hres, by simp, by simp [h]⟩
    · have hres : client_step (built ms)
          { pc := ClientPc.loop_test, cfd := cfd, msg_buf := buf } e
          = some (built ms, { pc := ClientPc.closing, cfd := cfd, msg_buf := buf },
              [ClientEvent.saw_run false]) := by
        simp only [client_step, h, if_false]
        rfl
      exact ⟨_, _, _, hres, by simp, by simpa using h⟩
  · have hb := run_client_body_built ms buf e.rd
    cases hr : e.rd with
    | fail errno =>
      rw [hr] at hb
      by_cases h : errno = EAGAIN ∨ errno = EWOULDBLOCK
      · simp only [h, if_true] at hb
        have hres : client_step (built ms)
            { pc := ClientPc.reading, cfd := cfd, msg_buf := buf } e
            = some (built ms, { pc := ClientPc.loop_test, cfd := cfd, msg_buf := buf },
                [ClientEvent.read_call cfd]) := by
          simp only [client_step, hr, hb, Option.map_some']
        refine ⟨_, _, _, hres, by simp, ?_⟩
        constructor
        · intro hc; simp at hc
        · rintro (⟨hc, _⟩ | ⟨_, errno1, he, h1, h2⟩)
          · simp at hc
          · cases he
            rcases h with h | h
            · exact absurd h h1
            · exact absurd h h2
      · simp only [h, if_false] at hb
        have hres : client_step (built ms)
            { pc := ClientPc.reading, cfd := cfd, msg_buf := buf } e
            = some (built ms, { pc := ClientPc.closing, cfd := cfd, msg_buf := buf },
                [ClientEvent.read_call cfd, ClientEvent.perror_read]) := by
          simp only [client_step, hr, hb, Option.map_some']
        refine ⟨_, _, _, hres, by simp, ?_⟩
        constructor
        · intro _
          exact Or.inr ⟨rfl, errno, rfl, fun h1 => h (Or.inl h1), fun h2 => h (Or.inr h2)⟩
        · intro _; rfl
    | got bytes =>
      rw [hr] at hb
      by_cases h : 0 < bytes.length
      · simp only [h, if_true] at hb
        have hres : client_step (built ms)
            { pc := ClientPc.reading, cfd := cfd, msg_buf := buf } e
            = some (built (ms ++ [bytes ++ buf.drop bytes.length]),
                { pc := ClientPc.loop_test, cfd := cfd,
                  msg_buf := bytes ++ buf.drop bytes.length },
                [ClientEvent.read_call cfd, ClientEvent.lock,
                 ClientEvent.add_to_list_call (bytes ++ buf.drop bytes.length),
                 ClientEvent.unlock]) := by
          simp only [client_step, hr, hb, Option.map_some']
        refine ⟨_, _, _, hres, by simp, ?_⟩
        constructor
        · intro hc; simp at hc
        · rintro (⟨hc, _⟩ | ⟨_, errno1, he, _, _⟩)
          · simp at hc
          · cases he
      · simp only [h, if_false] at hb
        have hres : client_step (built ms)
            { pc := ClientPc.reading, cfd := cfd, msg_buf := buf } e
            = some (built ms,
                { pc := ClientPc.loop_test, cfd := cfd,
                  msg_buf := bytes ++ buf.drop bytes.length },
                [ClientEvent.read_call cfd]) := by
          simp only [client_step, hr, hb, Option.map_some']
        refine ⟨_, _, _, hres, by simp, ?_⟩
        constructor
        · intro hc; simp at hc
        · rintro (⟨hc, _⟩ | ⟨_, errno1, he, _, _⟩)
          · simp at hc
          · cases he

/-- C12: end of stream does not stop a connection worker.  On every collector
reached by appends, an iteration whose `read` returns 0 appends nothing, leaves
the collector and the buffer as they were and goes back to the loop test; and a
step of a worker that stands in its loop leaves the loop exactly when the loop
test has read the run flag as false or a read has failed with an error other
than `EAGAIN` and `EWOULDBLOCK`. -/
theorem end_of_stream_keeps_worker_looping (ms : List Msg) (cfd : Int) (buf : Msg) :
    ∃ c0, append_all initCollector ms = some c0 ∧
      run_client_body c0 buf (ReadOutcome.got [])
        = some (c0, buf, LoopCtl.next_iteration, []) ∧
      (∀ e : ClientEnv, e.rd = ReadOutcome.got [] →
        client_step c0 { pc := ClientPc.reading, cfd := cfd, msg_buf := buf } e
          = some (c0, { pc := ClientPc.loop_test, cfd := cfd, msg_buf := buf },
              [ClientEvent.read_call cfd])) ∧
      (∀ (pc : ClientPc) (e : ClientEnv), pc = ClientPc.loop_test ∨ pc = ClientPc.reading →
        ∃ c1 w1 evs, client_step c0 { pc := pc, cfd := cfd, msg_buf := buf } e
            = some (c1, w1, evs) ∧
          w1.pc ≠ ClientPc.returned ∧
          (w1.pc = ClientPc.closing ↔
            (pc = ClientPc.loop_test ∧ e.run = false) ∨
            (pc = ClientPc.reading ∧
              ∃ errno, e.rd = ReadOutcome.fail errno ∧
                errno ≠ EAGAIN ∧ errno ≠ EWOULDBLOCK))) := by
  have hb : run_client_body (built ms) buf (ReadOutcome.got [])
      = some (built ms, buf, LoopCtl.next_iteration, []) := by
    rw [run_client_body_built]
    simp
  refine ⟨built ms, append_all_init ms, hb, ?_, ?_⟩
  · intro e he
    simp only [client_step, he, hb, Option.map_some']
  · intro pc e hpc
    exact client_step_leaves_loop ms pc cfd buf e hpc

/-- Witness of C12: a worker whose peer has closed the connection keeps polling;
after two reads that return 0 it stands at its loop test again, and nothing has
been appended. -/
theorem end_of_stream_keeps_worker_looping_witness :
    run_client initCollector (client_start 5 [72, 105])
        [⟨true, ReadOutcome.got [], 0⟩, ⟨true, ReadOutcome.got [], 0⟩,
         ⟨true, ReadOutcome.got [], 0⟩, ⟨true, ReadOutcome.got [], 0⟩]
      = some (initCollector, { pc := ClientPc.loop_test, cfd := 5, msg_buf := [72, 105] },
          [ClientEvent.saw_run true, ClientEvent.read_call 5,
           ClientEvent.saw_run true, ClientEvent.read_call 5]) ∧
    ∃ c0, append_all initCollector [] = some c0 ∧
      run_client_body c0 [72, 105] (ReadOutcome.got [])
        = some (c0, [72, 105], LoopCtl.next_iteration, []) := by
  obtain ⟨c0, h0, h1, _⟩ := end_of_stream_keeps_worker_looping [] 5 [72, 105]
  exact ⟨by decide, c0, h0, h1⟩

end Lab10

namespace Lab7

/-! ## The arrays of `groupByKey` against grouping on lists -/

theorem encode_line_numbers_length (kl : Int × List Int) (h : kl.2.length ≤ MAX_INPUT) :
    (encode kl).line_numbers.length = MAX_INPUT := by
  simp only [encode, List.length_append, List.length_replicate]
  omega

/-- Storing one more line number in the array element of a group. -/
theorem push_line_encode (k : Int) (ls : List Int) (ln : Int) (h : ls.length < MAX_INPUT) :
    push_line (encode (k, ls)) ln = some (encode (k, ls ++ [ln])) := by
  have hlen : (encode (k, ls)).count < (encode (k, ls)).line_numbers.length := by
    rw [encode_line_numbers_length _ (Nat.le_of_lt h)]; exact h
  have hk : MAX_INPUT - ls.length = (MAX_INPUT - (ls.length + 1)) + 1 := by omega
  simp only [push_line, hlen, if_true]
  simp only [encode, List.length_append, List.length_singleton, Option.some.injEq,
    Output.mk.injEq, true_and, and_true]
  rw [hk, List.set_append_right _ _ (Nat.le_refl _)]
  simp [List.replicate_succ]

theorem insert_line_not_mem (m : IntermediateInput) : ∀ (gs : List (Int × List Int)),
    m.doubled_value ∉ gs.map Prod.fst →
    insert_line m gs = gs ++ [(m.doubled_value, [m.line_number])]
  | [], _ => rfl
  | (k, ls) :: gs, h => by
    have hk : k ≠ m.doubled_value := fun e => h (by simp [e])
    have hr : m.doubled_value ∉ gs.map Prod.fst := fun e => h (by simp [e])
    simp only [insert_line, hk, if_false, insert_line_not_mem m gs hr, List.cons_append]

theorem insert_line_length_mem (m : IntermediateInput) : ∀ (gs : List (Int × List Int)),
    m.doubled_value ∈ gs.map Prod.fst → (insert_line m gs).length = gs.length
  | [], h => by simp at h
  | (k, ls) :: gs, h => by
    by_cases hk : k = m.doubled_value
    · simp only [insert_line, hk, if_true, List.length_cons]
    · have hr : m.doubled_value ∈ gs.map Prod.fst := by
        simp only [List.map_cons, List.mem_cons] at h
        rcases h with h | h
        · exact absurd h.symm hk
        · exact h
      simp only [insert_line, hk, if_false, List.length_cons, insert_line_length_mem m gs hr]

theorem find_group_match (m : IntermediateInput) (k i : Nat) (output : List Output)
    (o : Output) (hget : output[i]? = some o) (hd : o.doubled_value = m.doubled_value)
    (hc : o.count < MAX_INPUT) :
    find_group m (k + 1) i output
      = (push_line o m.line_number).map (fun o1 => some (output.set i o1)) := by
  simp only [find_group, hget, hd, hc, if_true]

theorem find_group_skip (m : IntermediateInput) (k i : Nat) (output : List Output)
    (o : Output) (hget : output[i]? = some o) (hd : ¬ o.doubled_value = m.doubled_value) :
    find_group m (k + 1) i output = find_group m k (i + 1) output := by
  simp only [find_group, hget, hd, if_false]

/-- The search loop of `groupByKey` over the array elements of the groups `gs`,
behind the elements `pre` that it has passed. -/
theorem find_group_encode (m : IntermediateInput) : ∀ (gs : List (Int × List Int))
    (pre tail : List Output), (∀ g ∈ gs, g.2.length < MAX_INPUT) →
    find_group m gs.length pre.length (pre ++ (gs.map encode ++ tail)) =
      if m.doubled_value ∈ gs.map Prod.fst then
        some (some (pre ++ ((insert_line m gs).map encode ++ tail)))
      else some none
  | [], pre, tail, _ => by simp [find_group]
  | (k, ls) :: gs, pre, tail, hcap => by
    have hget : (pre ++ (((k, ls) :: gs).map encode ++ tail))[pre.length]?
        = some (encode (k, ls)) := by
      rw [List.getElem?_append_right (Nat.le_refl _)]
      simp
    have hls : ls.length < MAX_INPUT := hcap (k, ls) (List.mem_cons_self _ _)
    show find_group m (gs.length + 1) pre.length _ = _
    by_cases hk : k = m.doubled_value
    · have hset : (pre ++ (((k, ls) :: gs).map encode ++ tail)).set pre.length
          (encode (k, ls ++ [m.line_number]))
            = pre ++ (((k, ls ++ [m.line_number]) :: gs).map encode ++ tail) := by
        rw [List.set_append_right _ _ (Nat.le_refl _)]
        simp
      have hmem : m.doubled_value ∈ ((k, ls) :: gs).map Prod.fst := by simp [hk]
      have hins : insert_line m ((k, ls) :: gs) = (k, ls ++ [m.line_number]) :: gs := by
        simp only [insert_line, hk, if_true]
      rw [find_group_match m _ _ _ _ hget hk hls, push_line_encode k ls _ hls, if_pos hmem,
        hins]
      simp only [Option.map_some', hset]
    · have ih := find_group_encode m gs (pre ++ [encode (k, ls)]) tail
        (fun g hg => hcap g (List.mem_cons_of_mem _ hg))
      have hpre : pre ++ [encode (k, ls)] ++ (gs.map encode ++ tail)
          = pre ++ (((k, ls) :: gs).map encode ++ tail) := by simp
      have hins : ∀ tl, pre ++ [encode (k, ls)] ++ ((insert_line m gs).map encode ++ tl)
          = pre ++ ((insert_line m ((k, ls) :: gs)).map encode ++ tl) := by
        intro tl
        simp only [insert_line, hk, if_false]
        simp
      rw [List.length_append, List.length_singleton, hpre, hins] at ih
      rw [find_group_skip m _ _ _ _ hget hk, ih]
      have hmem : m.doubled_value ∈ ((k, ls) :: gs).map Prod.fst ↔
          m.doubled_value ∈ gs.map Prod.fst := by
        simp only [List.map_cons, List.mem_cons]
        constructor
        · rintro (h | h)
          · exact absurd h.symm hk
          · exact h
        · exact Or.inr
      by_cases hm : m.doubled_value ∈ gs.map Prod.fst
      · rw [if_pos hm, if_pos (hmem.mpr hm)]
      · rw [if_neg hm, if_neg (fun h => hm (hmem.mp h))]

/-- One call of `groupByKey` on the arrays holding the groups `gs`, every group
and the array of groups having room for one more element. -/
theorem groupByKey_encode (m : IntermediateInput) (gs : List (Int × List Int))
    (hcap : ∀ g ∈ gs, g.2.length < MAX_INPUT) (hlen : gs.length < MAX_INPUT) :
    groupByKey m (encode_groups gs) = some (encode_groups (insert_line m gs)) := by
  have hf := find_group_encode m gs [] (List.replicate (MAX_INPUT - gs.length) zero_output) hcap
  simp only [List.length_nil, List.nil_append] at hf
  unfold groupByKey
  simp only [encode_groups]
  rw [hf]
  by_cases hm : m.doubled_value ∈ gs.map Prod.fst
  · simp only [hm, if_true, insert_line_length_mem m gs hm]
  · have hk : MAX_INPUT - gs.length = (MAX_INPUT - (gs.length + 1)) + 1 := by omega
    have hget : (gs.map encode ++ List.replicate (MAX_INPUT - gs.length) zero_output)[gs.length]?
        = some zero_output := by
      rw [List.getElem?_append_right (by simp)]
      simp only [List.length_map, Nat.sub_self]
      rw [hk, List.replicate_succ, List.getElem?_cons_zero]
    have hpush : push_line { zero_output with doubled_value := m.doubled_value, count := 0 }
        m.line_number = some (encode (m.doubled_value, [m.line_number])) := by
      have := push_line_encode m.doubled_value [] m.line_number (by decide)
      simpa [encode, zero_output] using this
    have hset : (gs.map encode ++ List.replicate (MAX_INPUT - gs.length) zero_output).set
        gs.length (encode (m.doubled_value, [m.line_number]))
          = (gs ++ [(m.doubled_value, [m.line_number])]).map encode
              ++ List.replicate (MAX_INPUT - (gs.length + 1)) zero_output := by
      rw [List.set_append_right _ _ (by simp)]
      simp only [List.length_map, Nat.sub_self]
      rw [hk]
      simp [List.replicate_succ]
    have h0 : (0 : Nat) < MAX_INPUT := by decide
    simp only [hm, if_false, hlen, if_true, hget, h0, hpush, Option.map_some', hset,
      insert_line_not_mem m gs hm, List.length_append, List.length_singleton]

/-- Number of line numbers held by the groups. -/
theorem insert_line_total (m : IntermediateInput) : ∀ (gs : List (Int × List Int)),
    ((insert_line m gs).map (fun g => g.2.length)).sum
      = (gs.map (fun g => g.2.length)).sum + 1
  | [] => by simp [insert_line]
  | (k, ls) :: gs => by
    by_cases hk : k = m.doubled_value
    · simp only [insert_line, hk, if_true, List.map_cons, List.sum_cons, List.length_append,
        List.length_singleton]
      omega
    · simp only [insert_line, hk, if_false, List.map_cons, List.sum_cons,
        insert_line_total m gs]
      omega

theorem insert_line_nonempty (m : IntermediateInput) : ∀ (gs : List (Int × List Int)),
    (∀ g ∈ gs, g.2 ≠ []) → ∀ g ∈ insert_line m gs, g.2 ≠ []
  | [], _, g, hg => by
    simp only [insert_line, List.mem_singleton] at hg
    rw [hg]; simp
  | (k, ls) :: gs, h, g, hg => by
    by_cases hk : k = m.doubled_value
    · simp only [insert_line, hk, if_true, List.mem_cons] at hg
      rcases hg with hg | hg
      · rw [hg]; simp
      · exact h g (List.mem_cons_of_mem _ hg)
    · simp only [insert_line, hk, if_false, List.mem_cons] at hg
      rcases hg with hg | hg
      · rw [hg]; exact h (k, ls) (List.mem_cons_self _ _)
      · exact insert_line_nonempty m gs (fun g1 h1 => h g1 (List.mem_cons_of_mem _ h1)) g hg

theorem size_le_total : ∀ (gs : List (Int × List Int)) (g : Int × List Int), g ∈ gs →
    g.2.length ≤ (gs.map (fun g => g.2.length)).sum
  | [], _, h => by simp at h
  | g0 :: gs, g, h => by
    simp only [List.mem_cons] at h
    simp only [List.map_cons, List.sum_cons]
    rcases h with h | h
    · rw [h]; omega
    · have := size_le_total gs g h
      omega

theorem length_le_total : ∀ (gs : List (Int × List Int)), (∀ g ∈ gs, g.2 ≠ []) →
    gs.length ≤ (gs.map (fun g => g.2.length)).sum
  | [], _ => by simp
  | g0 :: gs, h => by
    have h0 : 0 < g0.2.length := List.length_pos.mpr (h g0 (List.mem_cons_self _ _))
    have := length_le_total gs (fun g hg => h g (List.mem_cons_of_mem _ hg))
    simp only [List.length_cons, List.map_cons, List.sum_cons]
    omega

/-- The loop of `groupByKey` calls on the arrays holding the groups `gs`, as
long as the line numbers stored and to be stored are at most `MAX_INPUT`. -/
theorem group_all_encode : ∀ (ms : List IntermediateInput) (gs : List (Int × List Int)),
    (∀ g ∈ gs, g.2 ≠ []) →
    (gs.map (fun g => g.2.length)).sum + ms.length ≤ MAX_INPUT →
    group_all (encode_groups gs) ms = some (encode_groups (insert_all gs ms)) ∧
      (∀ g ∈ insert_all gs ms, g.2 ≠ []) ∧
      ((insert_all gs ms).map (fun g => g.2.length)).sum
        = (gs.map (fun g => g.2.length)).sum + ms.length
  | [], gs, hne, _ => ⟨rfl, hne, by simp [insert_all]⟩
  | m :: ms, gs, hne, hcap => by
    simp only [List.length_cons] at hcap
    have h1 : ∀ g ∈ gs, g.2.length < MAX_INPUT := fun g hg => by
      have := size_le_total gs g hg
      omega
    have h2 : gs.length < MAX_INPUT := by
      have := length_le_total gs hne
      omega
    have ht := insert_line_total m gs
    obtain ⟨a1, a2, a3⟩ := group_all_encode ms (insert_line m gs)
      (insert_line_nonempty m gs hne) (by rw [ht]; omega)
    refine ⟨?_, a2, ?_⟩
    · simp only [group_all, groupByKey_encode m gs h1 h2, Option.some_bind, insert_all, a1]
    · simp only [insert_all, a3, ht, List.length_cons]
      omega

/-! ## Grouping on lists meets the specification -/

theorem insert_line_keys (m : IntermediateInput) : ∀ (gs : List (Int × List Int)),
    (insert_line m gs).map Prod.fst =
      if m.doubled_value ∈ gs.map Prod.fst then gs.map Prod.fst
      else gs.map Prod.fst ++ [m.doubled_value]
  | [] => by simp [insert_line]
  | (k, ls) :: gs => by
    by_cases hk : k = m.doubled_value
    · simp [insert_line, hk]
    · have hk1 : ¬ m.doubled_value = k := fun e => hk e.symm
      by_cases hm : m.doubled_value ∈ gs.map Prod.fst
      · have : m.doubled_value ∈ k :: gs.map Prod.fst := List.mem_cons_of_mem _ hm
        simp only [insert_line, hk, if_false, List.map_cons, insert_line_keys m gs, hm, if_true]
        rw [if_pos this]
      · have : m.doubled_value ∉ k :: gs.map Prod.fst := by
          simp only [List.mem_cons, not_or]; exact ⟨hk1, hm⟩
        simp only [insert_line, hk, if_false, List.map_cons, insert_line_keys m gs, hm,
          List.cons_append]
        rw [if_neg this]

theorem lines_with_key_snoc (seen : List IntermediateInput) (m : IntermediateInput) (k : Int) :
    lines_with_key (seen ++ [m]) k =
      lines_with_key seen k ++ (if m.doubled_value = k then [m.line_number] else []) := by
  by_cases h : m.doubled_value = k
  · simp [lines_with_key, List.filter_append, h]
  · simp [lines_with_key, List.filter_append, h]

theorem lines_with_key_not_mem (seen : List IntermediateInput) (k : Int)
    (h : k ∉ seen.map (fun m => m.doubled_value)) : lines_with_key seen k = [] := by
  simp only [lines_with_key, List.map_eq_nil_iff, List.filter_eq_nil_iff, decide_eq_true_eq]
  intro m hm e
  exact h (List.mem_map.mpr ⟨m, hm, e⟩)

/-- Contents of the groups after one more entry. -/
theorem insert_line_content (seen : List IntermediateInput) (m : IntermediateInput) :
    ∀ (gs : List (Int × List Int)), (gs.map Prod.fst).Nodup →
    (∀ g ∈ gs, g.2 = lines_with_key seen g.1) →
    (m.doubled_value ∉ gs.map Prod.fst → lines_with_key seen m.doubled_value = []) →
    ∀ g ∈ insert_line m gs, g.2 = lines_with_key (seen ++ [m]) g.1
  | [], _, _, hnew, g, hg => by
    simp only [insert_line, List.mem_singleton] at hg
    rw [hg, lines_with_key_snoc, hnew (by simp)]
    simp
  | (k, ls) :: gs, hnd, hb, hnew, g, hg => by
    have hnd1 : (gs.map Prod.fst).Nodup := (List.nodup_cons.mp hnd).2
    have hk0 : k ∉ gs.map Prod.fst := (List.nodup_cons.mp hnd).1
    have hkl : ls = lines_with_key seen k := hb (k, ls) (List.mem_cons_self _ _)
    by_cases hk : k = m.doubled_value
    · simp only [insert_line, hk, if_true, List.mem_cons] at hg
      rcases hg with hg | hg
      · rw [hg, lines_with_key_snoc, hkl, hk]
        simp
      · have hne : ¬ m.doubled_value = g.1 := by
          intro e
          exact hk0 (by rw [hk, e]; exact List.mem_map.mpr ⟨g, hg, rfl⟩)
        rw [lines_with_key_snoc, if_neg hne, List.append_nil]
        exact hb g (List.mem_cons_of_mem _ hg)
    · simp only [insert_line, hk, if_false, List.mem_cons] at hg
      rcases hg with hg | hg
      · have hne : ¬ m.doubled_value = k := fun e => hk e.symm
        rw [hg, lines_with_key_snoc]
        simp only [hne, if_false, List.append_nil]
        exact hkl
      · refine insert_line_content seen m gs hnd1
          (fun g1 h1 => hb g1 (List.mem_cons_of_mem _ h1)) (fun h1 => hnew ?_) g hg
        simp only [List.map_cons, List.mem_cons, not_or]
        exact ⟨fun e => hk e.symm, h1⟩

/-- One more entry keeps the groups as the specification describes them. -/
theorem grouped_insert_line (seen : List IntermediateInput) (m : IntermediateInput)
    (gs : List (Int × List Int)) (h : grouped seen gs) :
    grouped (seen ++ [m]) (insert_line m gs) := by
  obtain ⟨h1, h2, h3, h4⟩ := h
  have hidx : ∀ a, a ∈ gs.map Prod.fst →
      ((seen ++ [m]).map (fun m => m.doubled_value)).indexOf a
        = (seen.map (fun m => m.doubled_value)).indexOf a := by
    intro a ha
    rw [List.map_append, List.indexOf_append_of_mem ((h2 a).mp ha)]
  have hpw : (gs.map Prod.fst).Pairwise (fun a b =>
      ((seen ++ [m]).map (fun m => m.doubled_value)).indexOf a
        < ((seen ++ [m]).map (fun m => m.doubled_value)).indexOf b) := by
    refine List.Pairwise.imp_of_mem ?_ h4
    intro a b ha hb hab
    rw [hidx a ha, hidx b hb]
    exact hab
  have hcontent := insert_line_content seen m gs h1 h3
    (fun hn => lines_with_key_not_mem seen _ (fun hs => hn ((h2 _).mpr hs)))
  by_cases hm : m.doubled_value ∈ gs.map Prod.fst
  · have hkeys : (insert_line m gs).map Prod.fst = gs.map Prod.fst := by
      rw [insert_line_keys, if_pos hm]
    refine ⟨by rw [hkeys]; exact h1, ?_, hcontent, by rw [hkeys]; exact hpw⟩
    intro k
    rw [hkeys, h2 k, List.map_append, List.mem_append]
    constructor
    · exact Or.inl
    · rintro (hk | hk)
      · exact hk
      · simp only [List.map_cons, List.map_nil, List.mem_singleton] at hk
        rw [hk]; exact (h2 _).mp hm
  · have hkeys : (insert_line m gs).map Prod.fst = gs.map Prod.fst ++ [m.doubled_value] := by
      rw [insert_line_keys, if_neg hm]
    have hns : m.doubled_value ∉ seen.map (fun m => m.doubled_value) :=
      fun hs => hm ((h2 _).mpr hs)
    refine ⟨?_, ?_, hcontent, ?_⟩
    · rw [hkeys, List.nodup_append]
      refine ⟨h1, List.nodup_singleton _, ?_⟩
      intro a ha hb
      simp only [List.mem_singleton] at hb
      exact hm (hb ▸ ha)
    · intro k
      rw [hkeys, List.mem_append, h2 k, List.map_append, List.mem_append]
      simp
    · rw [hkeys, List.pairwise_append]
      refine ⟨hpw, List.pairwise_singleton _ _, ?_⟩
      intro a ha b hb
      simp only [List.mem_singleton] at hb
      rw [hb, hidx a ha, List.map_append, List.indexOf_append_of_not_mem hns]
      have hlt : (seen.map (fun m => m.doubled_value)).indexOf a
          < (seen.map (fun m => m.doubled_value)).length :=
        List.indexOf_lt_length.mpr ((h2 a).mp ha)
      simp only [List.map_cons, List.map_nil, List.indexOf_cons_self]
      omega

theorem grouped_insert_all : ∀ (ms seen : List IntermediateInput) (gs : List (Int × List Int)),
    grouped seen gs → grouped (seen ++ ms) (insert_all gs ms)
  | [], seen, gs, h => by simpa [insert_all] using h
  | m :: ms, seen, gs, h => by
    have := grouped_insert_all ms (seen ++ [m]) (insert_line m gs)
      (grouped_insert_line seen m gs h)
    simpa [insert_all] using this

theorem grouped_nil : grouped [] [] := by
  simp [grouped]

/-! ## The pipeline of `main` -/

theorem map_all_eq : ∀ (inputs : List Input),
    (∀ e ∈ inputs, INT_MIN ≤ e.value * 2 ∧ e.value * 2 ≤ INT_MAX) →
    map_all inputs = some (inputs.map (fun e =>
      { line_number := e.line_number, doubled_value := e.value * 2 }))
  | [], _ => rfl
  | e :: es, h => by
    have he := h e (List.mem_cons_self _ _)
    have ih := map_all_eq es (fun e1 h1 => h e1 (List.mem_cons_of_mem _ h1))
    simp only [map_all, map, he, and_self, if_true, Option.some_bind, ih, Option.map_some',
      List.map_cons]

theorem reduce_encode (g : Int × List Int) : reduce (encode g) = g := by
  simp [reduce, encode]

theorem groups_of_encode (gs : List (Int × List Int)) : groups_of (encode_groups gs) = gs := by
  have ht : (gs.map encode ++ List.replicate (MAX_INPUT - gs.length) zero_output).take gs.length
      = gs.map encode := List.take_left' (by simp)
  simp only [groups_of, encode_groups, ht, List.map_map]
  have hid : ∀ g ∈ gs, (reduce ∘ encode) g = id g := fun g _ => reduce_encode g
  rw [List.map_congr_left hid, List.map_id]

theorem printed_encode (gs : List (Int × List Int)) (hne : ∀ g ∈ gs, g.2 ≠ []) :
    (((encode_groups gs).output.take (encode_groups gs).result_count).filter
        (fun o => decide (o.count > 0))).map reduce = gs := by
  have ht : (gs.map encode ++ List.replicate (MAX_INPUT - gs.length) zero_output).take gs.length
      = gs.map encode := List.take_left' (by simp)
  have hf : (gs.map encode).filter (fun o => decide (o.count > 0)) = gs.map encode := by
    rw [List.filter_eq_self]
    intro o ho
    obtain ⟨g, hg, rfl⟩ := List.mem_map.mp ho
    simpa [encode] using List.length_pos.mpr (hne g hg)
  simp only [encode_groups, ht, hf, List.map_map]
  have hid : ∀ g ∈ gs, (reduce ∘ encode) g = id g := fun g _ => reduce_encode g
  rw [List.map_congr_left hid, List.map_id]

theorem init_groups_eq : init_groups = encode_groups [] := by
  simp [init_groups, encode_groups]

/-- The groups built and printed by `main` are those of the grouping on lists,
which are as the specification describes them and hold one line number per
entry. -/
theorem main_grouped (inputs : List Input) (hlen : inputs.length ≤ MAX_INPUT)
    (hov : ∀ e ∈ inputs, INT_MIN ≤ e.value * 2 ∧ e.value * 2 ≤ INT_MAX) :
    ∃ groups, main inputs = some (groups, groups) ∧
      grouped (inputs.map (fun e =>
        ({ line_number := e.line_number, doubled_value := e.value * 2 } : IntermediateInput)))
        groups ∧
      (groups.map (fun g => g.2.length)).sum = inputs.length := by
  have hmap := map_all_eq inputs hov
  obtain ⟨a1, a2, a3⟩ := group_all_encode (inputs.map (fun e =>
    ({ line_number := e.line_number, doubled_value := e.value * 2 } : IntermediateInput))) []
    (by simp) (by simpa using hlen)
  have hg := grouped_insert_all (inputs.map (fun e =>
    ({ line_number := e.line_number, doubled_value := e.value * 2 } : IntermediateInput))) [] []
    grouped_nil
  rw [List.nil_append] at hg
  refine ⟨_, ?_, hg, by simpa using a3⟩
  simp only [main, hmap, Option.some_bind, init_groups_eq, a1, Option.map_some',
    groups_of_encode, printed_encode _ a2]

/-- The line numbers `main` gives to the values it accepts: above the number of
entries stored before, pairwise distinct, and never more than `MAX_INPUT`
entries in all. -/
theorem read_values_numbered : ∀ (vs : List Int) (input_size : Nat),
    (∀ x ∈ (read_values input_size vs).map Input.line_number, (input_size : Int) < x) ∧
    ((read_values input_size vs).map Input.line_number).Nodup ∧
    (read_values input_size vs).length ≤ MAX_INPUT - input_size
  | [], n => by simp [read_values]
  | v :: vs, n => by
    obtain ⟨h1, h2, h3⟩ := read_values_numbered vs (n + 1)
    by_cases hn : n < MAX_INPUT
    · simp only [read_values, hn, if_true, List.map_cons, List.mem_cons, List.nodup_cons,
        List.length_cons]
      refine ⟨?_, ⟨?_, h2⟩, by omega⟩
      · rintro x (hx | hx)
        · rw [hx]; omega
        · have := h1 x hx
          push_cast at this
          omega
      · intro hmem
        have := h1 _ hmem
        push_cast at this
        omega
    · simp [read_values, hn]

/-- The array `input_data` of `main` holds at most `MAX_INPUT` entries, with
pairwise distinct line numbers. -/
theorem input_data_numbered (vs : List Int) :
    (input_data vs).length ≤ MAX_INPUT ∧ ((input_data vs).map Input.line_number).Nodup :=
  ⟨by simpa using (read_values_numbered vs 0).2.2, (read_values_numbered vs 0).2.1⟩

/-- Grouping of any list of at most `MAX_INPUT` entries whose doubling does not
overflow: `map` on every entry and then `groupByKey` on the results in input
order are defined and yield groups, all of them printed, with pairwise distinct
keys, which are the doubled values of the input, listed in the order of the
first occurrence of the key; the group with key `k` holds exactly the line
numbers of the entries with `2 * value = k`, in input order; the groups hold as
many line numbers as there are entries; and when the line numbers of the input
are pairwise distinct every input line number is in exactly one group. -/
theorem grouping_of_entries (inputs : List Input) (hlen : inputs.length ≤ MAX_INPUT)
    (hov : ∀ e ∈ inputs, INT_MIN ≤ e.value * 2 ∧ e.value * 2 ≤ INT_MAX) :
    ∃ groups, main inputs = some (groups, groups) ∧
      (groups.map Prod.fst).Nodup ∧
      (∀ k, k ∈ groups.map Prod.fst ↔ ∃ e ∈ inputs, e.value * 2 = k) ∧
      (groups.map Prod.fst).Pairwise (fun a b =>
        (inputs.map (fun e => e.value * 2)).indexOf a
          < (inputs.map (fun e => e.value * 2)).indexOf b) ∧
      (∀ g ∈ groups,
        g.2 = (inputs.filter (fun e => decide (e.value * 2 = g.1))).map Input.line_number) ∧
      (groups.map (fun g => g.2.length)).sum = inputs.length ∧
      ((inputs.map Input.line_number).Nodup →
        ∀ e ∈ inputs, ∃! g, g ∈ groups ∧ e.line_number ∈ g.2) := by
  obtain ⟨groups, hmain, ⟨g1, g2, g3, g4⟩, hsum⟩ := main_grouped inputs hlen hov
  have hkeys : (inputs.map (fun e =>
      IntermediateInput.mk e.line_number (e.value * 2))).map (fun m => m.doubled_value)
        = inputs.map (fun e => e.value * 2) := by
    simp [List.map_map, Function.comp]
  have hlines : ∀ k, lines_with_key (inputs.map (fun e =>
      IntermediateInput.mk e.line_number (e.value * 2))) k
        = (inputs.filter (fun e => decide (e.value * 2 = k))).map Input.line_number := by
    intro k
    simp only [lines_with_key, List.filter_map, List.map_map]
    rfl
  rw [hkeys] at g2 g4
  have hk : ∀ k, k ∈ groups.map Prod.fst ↔ ∃ e ∈ inputs, e.value * 2 = k := by
    intro k
    rw [g2 k, List.mem_map]
  have hcontent : ∀ g ∈ groups,
      g.2 = (inputs.filter (fun e => decide (e.value * 2 = g.1))).map Input.line_number :=
    fun g hg => by rw [g3 g hg, hlines]
  refine ⟨groups, hmain, g1, hk, g4, hcontent, hsum, ?_⟩
  intro hnd e he
  obtain ⟨g, hg, hgk⟩ := List.mem_map.mp ((hk (e.value * 2)).mpr ⟨e, he, rfl⟩)
  have hin : e.line_number ∈ g.2 := by
    rw [hcontent g hg]
    refine List.mem_map.mpr ⟨e, List.mem_filter.mpr ⟨he, ?_⟩, rfl⟩
    simp [hgk]
  refine ⟨g, ⟨hg, hin⟩, ?_⟩
  rintro g' ⟨hg', hin'⟩
  rw [hcontent g' hg'] at hin'
  obtain ⟨e', he', hln⟩ := List.mem_map.mp hin'
  obtain ⟨he'in, he'k⟩ := List.mem_filter.mp he'
  have hee : e' = e := List.inj_on_of_nodup_map hnd he'in he hln
  have hkey : g'.1 = g.1 := by
    have : e'.value * 2 = g'.1 := by simpa using he'k
    rw [← this, hee, hgk]
  have h2 : g'.2 = g.2 := by rw [hcontent g' hg', hcontent g hg, hkey]
  exact Prod.ext hkey h2

/-- C11: for every array `input_data` that `main` builds from the accepted
lines (it holds at most `MAX_INPUT = 100` (line_number, value) entries, numbered
1, 2, ..) and whose doubling does not overflow, `map` on every entry and then
`groupByKey` on the results in input order are defined and yield groups, all of
them printed, with pairwise distinct keys, which are the doubled values of the
input, listed in the order of the first occurrence of the key; the group with
key `k` holds exactly the line numbers of the entries with `2 * value = k`, in
input order; and every input line number is in exactly one group. -/
theorem grouping_by_doubled_value (vs : List Int)
    (hov : ∀ e ∈ input_data vs, INT_MIN ≤ e.value * 2 ∧ e.value * 2 ≤ INT_MAX) :
    (input_data vs).length ≤ MAX_INPUT ∧
    ∃ groups, main (input_data vs) = some (groups, groups) ∧
      (groups.map Prod.fst).Nodup ∧
      (∀ k, k ∈ groups.map Prod.fst ↔ ∃ e ∈ input_data vs, e.value * 2 = k) ∧
      (groups.map Prod.fst).Pairwise (fun a b =>
        ((input_data vs).map (fun e => e.value * 2)).indexOf a
          < ((input_data vs).map (fun e => e.value * 2)).indexOf b) ∧
      (∀ g ∈ groups,
        g.2 = ((input_data vs).filter
          (fun e => decide (e.value * 2 = g.1))).map Input.line_number) ∧
      (groups.map (fun g => g.2.length)).sum = (input_data vs).length ∧
      (∀ e ∈ input_data vs, ∃! g, g ∈ groups ∧ e.line_number ∈ g.2) := by
  obtain ⟨hlen, hnd⟩ := input_data_numbered vs
  obtain ⟨groups, a1, a2, a3, a4, a5, a6, a7⟩ := grouping_of_entries (input_data vs) hlen hov
  exact ⟨hlen, groups, a1, a2, a3, a4, a5, a6, a7 hnd⟩

/-- Witness of C11: the accepted values 3, 5 and 4294967299, the last of which
is stored as the `int` 3. -/
theorem grouping_by_doubled_value_witness :
    input_data [3, 5, 4294967299]
      = [{ line_number := 1, value := 3 }, { line_number := 2, value := 5 },
         { line_number := 3, value := 3 }] ∧
    (∀ e ∈ input_data [3, 5, 4294967299], INT_MIN ≤ e.value * 2 ∧ e.value * 2 ≤ INT_MAX) ∧
    main (input_data [3, 5, 4294967299])
      = some ([(6, [1, 3]), (10, [2])], [(6, [1, 3]), (10, [2])]) ∧
    ∃ groups, main (input_data [3, 5, 4294967299]) = some (groups, groups) ∧
      (groups.map Prod.fst).Nodup ∧
      (∀ e ∈ input_data [3, 5, 4294967299], ∃! g, g ∈ groups ∧ e.line_number ∈ g.2) := by
  obtain ⟨_, groups, a1, a2, _, _, _, _, a7⟩ :=
    grouping_by_doubled_value [3, 5, 4294967299] (by decide)
  exact ⟨by decide, by decide, by decide, groups, a1, a2, a7⟩

end Lab7
